import Mathlib

/-!
Verification of the wechat-publisher draft pipeline (`scripts/publisher.py`).

Strings are modelled as `List Char` (Python `str` is a sequence of code
points); UTF-8 byte lengths are computed per character with `Char.utf8Size`,
matching `text.encode('utf-8')` lengths.  Network responses, the token cache
file and the filesystem are passed in explicitly as values.  The regex-based
HTML rewrite stages are modelled by hand-compiled scanners that implement the
semantics of the concrete patterns used in the source (leftmost match,
greedy/lazy quantifier behaviour as exercised by those patterns).
-/

/-- Number of bytes of the UTF-8 encoding of a string, i.e.
`len(text.encode('utf-8'))`. -/
def utf8Len (s : List Char) : Nat := (s.map Char.utf8Size).sum

/-- The descending loop of `truncate_by_bytes` (publisher.py:531-534):
`for i in range(len(text), 0, -1)` returning the first prefix `text[:i]`
whose UTF-8 encoding fits, and `""` if none does. -/
def tbbLoop (text : List Char) (maxBytes : Nat) : Nat → List Char
  | 0 => []
  | i + 1 =>
    if utf8Len (text.take (i + 1)) ≤ maxBytes then text.take (i + 1)
    else tbbLoop text maxBytes i

/-- `truncate_by_bytes` (publisher.py:525-535): return `text` unchanged if its
UTF-8 encoding has at most `max_bytes` bytes, otherwise truncate character by
character from the end until it fits. -/
def truncate_by_bytes (text : List Char) (maxBytes : Nat) : List Char :=
  if utf8Len text ≤ maxBytes then text
  else tbbLoop text maxBytes text.length

theorem utf8Len_nil : utf8Len [] = 0 := rfl

theorem utf8Len_append (a b : List Char) :
    utf8Len (a ++ b) = utf8Len a + utf8Len b := by
  simp [utf8Len]

theorem utf8Len_le_of_pref {a b : List Char} (h : a <+: b) :
    utf8Len a ≤ utf8Len b := by
  obtain ⟨t, rfl⟩ := h
  rw [utf8Len_append]
  exact Nat.le_add_right _ _

theorem length_le_utf8Len (s : List Char) : s.length ≤ utf8Len s := by
  induction s with
  | nil => simp [utf8Len]
  | cons c cs ih =>
    have hc := Char.utf8Size_pos c
    simp only [utf8Len, List.map_cons, List.sum_cons, List.length_cons]
    simp only [utf8Len] at ih
    omega

theorem take_pref_take {t : List Char} {j k : Nat} (h : j ≤ k) :
    t.take j <+: t.take k := by
  have h1 : (t.take k).take j = t.take j := by
    rw [List.take_take, Nat.min_eq_left h]
  have h2 := List.take_prefix j (t.take k)
  rwa [h1] at h2

theorem tbbLoop_utf8Len_le (text : List Char) (maxBytes : Nat) :
    ∀ i, utf8Len (tbbLoop text maxBytes i) ≤ maxBytes := by
  intro i
  induction i with
  | zero => simp [tbbLoop, utf8Len]
  | succ i ih =>
    by_cases h : utf8Len (text.take (i + 1)) ≤ maxBytes
    · simp [tbbLoop, h]
    · simpa [tbbLoop, h] using ih

theorem tbbLoop_pref (text : List Char) (maxBytes : Nat) :
    ∀ i, tbbLoop text maxBytes i <+: text := by
  intro i
  induction i with
  | zero => exact List.nil_prefix
  | succ i ih =>
    by_cases h : utf8Len (text.take (i + 1)) ≤ maxBytes
    · simpa [tbbLoop, h] using List.take_prefix (i + 1) text
    · simpa [tbbLoop, h] using ih

theorem tbbLoop_longest (text : List Char) (maxBytes : Nat) :
    ∀ i j, j ≤ i → utf8Len (text.take j) ≤ maxBytes →
      text.take j <+: tbbLoop text maxBytes i := by
  intro i
  induction i with
  | zero =>
    intro j hj _
    interval_cases j
    exact List.nil_prefix
  | succ i ih =>
    intro j hj hfit
    by_cases h : utf8Len (text.take (i + 1)) ≤ maxBytes
    · simpa [tbbLoop, h] using take_pref_take hj
    · have hji : j ≤ i := by
        rcases Nat.lt_or_ge j (i + 1) with hlt | hge
        · omega
        · exfalso
          have : text.take (i + 1) <+: text.take j := take_pref_take (by omega)
          exact h (le_trans (utf8Len_le_of_pref this) hfit)
      simpa [tbbLoop, h] using ih j hji hfit

theorem truncate_utf8Len_le (text : List Char) (maxBytes : Nat) :
    utf8Len (truncate_by_bytes text maxBytes) ≤ maxBytes := by
  unfold truncate_by_bytes
  by_cases h : utf8Len text ≤ maxBytes
  · simp [h]
  · simpa [h] using tbbLoop_utf8Len_le text maxBytes text.length

theorem truncate_pref (text : List Char) (maxBytes : Nat) :
    truncate_by_bytes text maxBytes <+: text := by
  unfold truncate_by_bytes
  by_cases h : utf8Len text ≤ maxBytes
  · simp [h]
  · simpa [h] using tbbLoop_pref text maxBytes text.length

theorem truncate_longest (text : List Char) (maxBytes : Nat) :
    ∀ p, p <+: text → utf8Len p ≤ maxBytes →
      p <+: truncate_by_bytes text maxBytes := by
  intro p hp hfit
  unfold truncate_by_bytes
  by_cases h : utf8Len text ≤ maxBytes
  · simpa [h] using hp
  · have hptake : p = text.take p.length := List.prefix_iff_eq_take.mp hp
    have hlen : p.length ≤ text.length := hp.length_le
    rw [hptake]
    simpa [h] using
      tbbLoop_longest text maxBytes text.length p.length hlen (by rwa [← hptake])

theorem truncate_noop (text : List Char) (maxBytes : Nat)
    (h : utf8Len text ≤ maxBytes) : truncate_by_bytes text maxBytes = text := by
  simp [truncate_by_bytes, h]

theorem truncate_eq_of_spec {text r : List Char} {maxBytes : Nat}
    (h1 : r <+: text) (h2 : utf8Len r ≤ maxBytes)
    (h3 : ∀ p, p <+: text → utf8Len p ≤ maxBytes → p <+: r) :
    truncate_by_bytes text maxBytes = r := by
  have ha : truncate_by_bytes text maxBytes <+: r :=
    h3 _ (truncate_pref text maxBytes) (truncate_utf8Len_le text maxBytes)
  have hb : r <+: truncate_by_bytes text maxBytes :=
    truncate_longest text maxBytes r h1 h2
  exact ha.eq_of_length (Nat.le_antisymm ha.length_le hb.length_le)

theorem truncate_truncate (text : List Char) {m n : Nat} (h : m ≤ n) :
    truncate_by_bytes (truncate_by_bytes text n) m = truncate_by_bytes text m := by
  apply truncate_eq_of_spec
  · exact truncate_longest text n _ (truncate_pref text m)
      (le_trans (truncate_utf8Len_le text m) h)
  · exact truncate_utf8Len_le text m
  · intro p hp hfit
    exact truncate_longest text m p (hp.trans (truncate_pref text n)) hfit

theorem truncate_take (text : List Char) {k m : Nat} (h : m ≤ k) :
    truncate_by_bytes (text.take k) m = truncate_by_bytes text m := by
  apply truncate_eq_of_spec
  · have hlen : (truncate_by_bytes text m).length ≤ k :=
      le_trans (length_le_utf8Len _) (le_trans (truncate_utf8Len_le text m) h)
    have heq : truncate_by_bytes text m = text.take (truncate_by_bytes text m).length :=
      List.prefix_iff_eq_take.mp (truncate_pref text m)
    rw [heq]
    exact take_pref_take hlen
  · exact truncate_utf8Len_le text m
  · intro p hp hfit
    exact truncate_longest text m p (hp.trans (List.take_prefix k text)) hfit

/-- C1: for every string `s` and byte limit `n`, `truncate_by_bytes s n` is a
prefix of `s` (so it never splits inside a multi-byte code point: it is a
whole-character prefix), its UTF-8 encoding has at most `n` bytes, it is the
longest such prefix, and if `s` already fits in `n` bytes it is returned
unchanged. -/
theorem truncate_by_bytes_correct (s : List Char) (n : Nat) :
    utf8Len (truncate_by_bytes s n) ≤ n ∧
    truncate_by_bytes s n <+: s ∧
    (∀ p, p <+: s → utf8Len p ≤ n → p <+: truncate_by_bytes s n) ∧
    (utf8Len s ≤ n → truncate_by_bytes s n = s) :=
  ⟨truncate_utf8Len_le s n, truncate_pref s n, truncate_longest s n,
    truncate_noop s n⟩

/-- C1 witness: the theorem applied at the concrete string "héllo" with byte
limit 3, discharging the hypotheses of the conditional conjuncts at concrete
inputs. -/
theorem truncate_by_bytes_correct_witness :
    (['h'] <+: truncate_by_bytes ['h', 'é', 'l', 'l', 'o'] 3) ∧
    truncate_by_bytes ['a', 'b'] 5 = ['a', 'b'] :=
  ⟨(truncate_by_bytes_correct ['h', 'é', 'l', 'l', 'o'] 3).2.2.1 ['h']
      (by decide) (by decide),
    (truncate_by_bytes_correct ['a', 'b'] 5).2.2.2 (by decide)⟩

/-! ### Token cache (`WeChatPublisher.get_access_token`, publisher.py:212-270) -/

/-- Outcome of reading the token cache file: the file may be absent, fail to
parse (any exception is caught and logged), or yield a token with its
`expires_at` timestamp. -/
inductive CacheRead
  | missing
  | unreadable
  | ok (access_token : List Char) (expires_at : Int)
deriving DecidableEq

/-- JSON body returned by the `GET /token` endpooint: either an `errcode`
error object or `access_token` with an optional `expires_in` TTL. -/
structure TokenResponse where
  errcode : Option Int
  access_token : List Char
  expires_in : Option Int
deriving DecidableEq

/-- Result of `get_access_token`: the returned token or raised error code,
the number of network requests issued, and the cache record written
(`access_token`, `expires_at`), if any. -/
structure TokenFetchResult where
  outcome : Except Int (List Char)
  networkCalls : Nat
  persisted : Option (List Char × Int)

/-- The fetch branch of `get_access_token` (publisher.py:235-270): request a
new token; raise if the response contains `errcode` at all; otherwise persist
`expires_at = now + expires_in` (default 7200) and return the token. -/
def fetch_new_token (now : Int) (resp : TokenResponse) : TokenFetchResult :=
  match resp.errcode with
  | some c => ⟨.error c, 1, none⟩
  | none =>
    ⟨.ok resp.access_token, 1,
      some (resp.access_token, now + resp.expires_in.getD 7200)⟩

/-- `get_access_token` (publisher.py:212-270): with `force_refresh` false and
a readable cache whose expiry is more than 300 seconds away, return the
cached token with no network call; otherwise fall through to a fetch. -/
def get_access_token (force_refresh : Bool) (cache : CacheRead) (now : Int)
    (resp : TokenResponse) : TokenFetchResult :=
  if force_refresh = false then
    match cache with
    | .ok tok exp =>
      if now < exp - 300 then ⟨.ok tok, 0, none⟩
      else fetch_new_token now resp
    | _ => fetch_new_token now resp
  else fetch_new_token now resp

/-- C2: with `forceRefresh = false`, a readable cached token whose
`expires_at` is more than the 300s safety margin away is returned with zero
network calls; a cached token inside the margin (e.g. `expires_at = now+100`)
triggers a network fetch; and a freshly fetched token is persisted with
expiry `now` plus the server TTL, defaulting to 7200. -/
theorem get_access_token_cache_correct (tok : List Char) (exp now : Int)
    (resp : TokenResponse) :
    (now < exp - 300 →
      get_access_token false (.ok tok exp) now resp = ⟨.ok tok, 0, none⟩) ∧
    (¬ now < exp - 300 →
      (get_access_token false (.ok tok exp) now resp).networkCalls = 1) ∧
    (¬ now < exp - 300 → resp.errcode = none →
      get_access_token false (.ok tok exp) now resp =
        ⟨.ok resp.access_token, 1,
          some (resp.access_token, now + resp.expires_in.getD 7200)⟩) := by
  refine ⟨fun h => by simp [get_access_token, h], fun h => ?_, fun h he => ?_⟩
  · cases hc : resp.errcode <;>
      simp [get_access_token, h, fetch_new_token, hc]
  · simp [get_access_token, h, fetch_new_token, he]

/-- C2 witness: the theorem applied at `expires_at = now + 10000` (cache hit,
zero network calls), at `expires_at = now + 100` (inside the margin, one
network call), and at a successful fetch response with no TTL given
(persisted expiry defaults to `now + 7200`). -/
theorem get_access_token_cache_correct_witness :
    get_access_token false (.ok ['t'] 10000) 0 ⟨none, ['n'], none⟩ =
      ⟨.ok ['t'], 0, none⟩ ∧
    (get_access_token false (.ok ['t'] 100) 0 ⟨none, ['n'], none⟩).networkCalls = 1 ∧
    get_access_token false (.ok ['t'] 100) 0 ⟨none, ['n'], none⟩ =
      ⟨.ok ['n'], 1, some (['n'], 7200)⟩ :=
  ⟨(get_access_token_cache_correct ['t'] 10000 0 ⟨none, ['n'], none⟩).1 (by decide),
    (get_access_token_cache_correct ['t'] 100 0 ⟨none, ['n'], none⟩).2.1 (by decide),
    by
      have h := (get_access_token_cache_correct ['t'] 100 0 ⟨none, ['n'], none⟩).2.2
        (by decide) rfl
      simpa using h⟩

/-! ### Image upload (`WeChatPublisher.upload_image`, publisher.py:272-316) -/

/-- JSON body returned by the material-upload endpoint. -/
structure UploadResponse where
  errcode : Option Int
  media_id : Option (List Char)
  url : Option (List Char)
deriving DecidableEq

/-- Result of `upload_image`. -/
inductive UploadResult
  | fileNotFound
  | apiError (code : Int)
  | ok (media_id : Option (List Char)) (url : List Char)
deriving DecidableEq

/-- The error criterion shared by `upload_image` and `create_draft`:
`'errcode' in result and result['errcode'] != 0`. -/
def hasNonzeroErr : Option Int → Bool
  | some c => c != 0
  | none => false

/-- `upload_image` (publisher.py:272-316): fail if the file does not exist;
raise only on a present and nonzero `errcode`; otherwise return
`result.get('media_id')` and `result.get('url', '')`. -/
def upload_image (fileExists : Bool) (resp : UploadResponse) : UploadResult :=
  if fileExists = false then .fileNotFound
  else if hasNonzeroErr resp.errcode then .apiError (resp.errcode.getD 0)
  else .ok resp.media_id (resp.url.getD [])

/-! ### Draft submission retry (`WeChatPublisher.create_draft`, publisher.py:600-635) -/

/-- JSON body returned by the `POST /draft/add` endpoint. -/
structure DraftResponse where
  errcode : Option Int
  media_id : Option (List Char)
deriving DecidableEq

/-- Outcome of the submission section of `create_draft`: the final response
or raised error code, the number of forced token refreshes, and the payloads
submitted, in order. -/
structure SubmitOutcome (π : Type) where
  result : Except Int DraftResponse
  forcedRefreshes : Nat
  submissions : List π

/-- The submit-and-retry logic of `create_draft` (publisher.py:603-630):
submit once; if the response has a present, nonzero `errcode` in
{40001, 42001}, refresh the token with `force_refresh=True` once and
resubmit the same payload, raising if the second response also has a
present nonzero `errcode`; any other nonzero `errcode` raises immediately.
`r1` and `r2` are the responses the endpoint would give to the first and
second submission. -/
def submit_with_retry {π : Type} (payload : π) (r1 r2 : DraftResponse) :
    SubmitOutcome π :=
  if hasNonzeroErr r1.errcode then
    if r1.errcode = some 40001 ∨ r1.errcode = some 42001 then
      if hasNonzeroErr r2.errcode then
        ⟨.error (r2.errcode.getD 0), 1, [payload, payload]⟩
      else ⟨.ok r2, 1, [payload, payload]⟩
    else ⟨.error (r1.errcode.getD 0), 0, [payload]⟩
  else ⟨.ok r1, 0, [payload]⟩

/-- C3: a first response with error code 40001 or 42001 causes exactly one
forced refresh and exactly one resubmission of the same payload; any other
nonzero error code causes zero retries and an immediate failure; a second
failing response after the retry also fails; and at most two submissions are
ever issued. -/
theorem submit_with_retry_correct {π : Type} (payload : π)
    (r1 r2 : DraftResponse) :
    (r1.errcode = some 40001 ∨ r1.errcode = some 42001 →
      (submit_with_retry payload r1 r2).forcedRefreshes = 1 ∧
      (submit_with_retry payload r1 r2).submissions = [payload, payload] ∧
      (hasNonzeroErr r2.errcode = true →
        (submit_with_retry payload r1 r2).result = .error (r2.errcode.getD 0)) ∧
      (hasNonzeroErr r2.errcode = false →
        (submit_with_retry payload r1 r2).result = .ok r2)) ∧
    (∀ c : Int, r1.errcode = some c → c ≠ 0 → c ≠ 40001 → c ≠ 42001 →
      (submit_with_retry payload r1 r2).forcedRefreshes = 0 ∧
      (submit_with_retry payload r1 r2).submissions = [payload] ∧
      (submit_with_retry payload r1 r2).result = .error c) ∧
    (submit_with_retry payload r1 r2).submissions.length ≤ 2 := by
  refine ⟨fun h => ?_, fun c hc h0 h1 h2 => ?_, ?_⟩
  · have herr : hasNonzeroErr r1.errcode = true := by
      rcases h with h | h <;> simp [hasNonzeroErr, h]
    by_cases h2 : hasNonzeroErr r2.errcode = true <;>
      simp_all [submit_with_retry]
  · have herr : hasNonzeroErr r1.errcode = true := by
      simp [hasNonzeroErr, hc, h0]
    simp [submit_with_retry, hasNonzeroErr, hc, h0, h1, h2]
  · by_cases ha : hasNonzeroErr r1.errcode = true <;>
      by_cases hb : r1.errcode = some 40001 ∨ r1.errcode = some 42001 <;>
      by_cases hc : hasNonzeroErr r2.errcode = true <;>
      simp_all [submit_with_retry]

/-- C3 witness: the theorem applied at error code 42001 on the first response
(one forced refresh, two submissions of the same payload) and at error code
45009 (zero retries, immediate failure). -/
theorem submit_with_retry_correct_witness :
    (submit_with_retry (0 : Nat) ⟨some 42001, none⟩ ⟨none, some ['m']⟩).forcedRefreshes = 1 ∧
    (submit_with_retry (0 : Nat) ⟨some 42001, none⟩ ⟨none, some ['m']⟩).submissions = [0, 0] ∧
    (submit_with_retry (0 : Nat) ⟨some 42001, none⟩ ⟨none, some ['m']⟩).result =
      .ok ⟨none, some ['m']⟩ ∧
    (submit_with_retry (1 : Nat) ⟨some 45009, none⟩ ⟨none, none⟩).forcedRefreshes = 0 ∧
    (submit_with_retry (1 : Nat) ⟨some 45009, none⟩ ⟨none, none⟩).result = .error 45009 :=
  ⟨((submit_with_retry_correct 0 ⟨some 42001, none⟩ ⟨none, some ['m']⟩).1 (Or.inr rfl)).1,
    ((submit_with_retry_correct 0 ⟨some 42001, none⟩ ⟨none, some ['m']⟩).1 (Or.inr rfl)).2.1,
    ((submit_with_retry_correct 0 ⟨some 42001, none⟩ ⟨none, some ['m']⟩).1 (Or.inr rfl)).2.2.2 rfl,
    ((submit_with_retry_correct 1 ⟨some 45009, none⟩ ⟨none, none⟩).2.1 45009 rfl
      (by decide) (by decide) (by decide)).1,
    ((submit_with_retry_correct 1 ⟨some 45009, none⟩ ⟨none, none⟩).2.1 45009 rfl
      (by decide) (by decide) (by decide)).2.2⟩

/-! ### Field constraint enforcement (`create_draft`, publisher.py:518-580) -/

/-- Title enforcement (publisher.py:537-560): if the title exceeds 64
characters it is cut to its first 64 characters (`title[:64]`), with a
warning printed; only otherwise (`elif`), if its UTF-8 encoding exceeds 192
bytes, `truncate_by_bytes(title, 192)` is applied.  The boolean records
whether a truncation warning was printed. -/
def enforce_title (title : List Char) : List Char × Bool :=
  if title.length > 64 then (title.take 64, true)
  else if utf8Len title > 192 then (truncate_by_bytes title 192, true)
  else (title, false)

/-- Author enforcement (publisher.py:568-572): a non-empty author is
truncated to 20 bytes; an empty author is left as is. -/
def resolve_author (author : List Char) : List Char :=
  if author = [] then author else truncate_by_bytes author 20

/-- Digest derivation and enforcement (publisher.py:574-578): an empty digest
is derived from the (already enforced) title via `truncate_by_bytes(title,
54)`; the digest is then truncated to 120 bytes. -/
def resolve_digest (title digest : List Char) : List Char :=
  let d := if digest = [] then truncate_by_bytes title 54 else digest
  truncate_by_bytes d 120

/-- C4: the 64-character limit is the primary title rule: a longer title is
cut to exactly its first 64 characters and the truncation is reported; the
192-byte rule applies only as a fallback when the character count is within
64 but the byte count exceeds 192; otherwise the title passes unchanged. -/
theorem enforce_title_correct (t : List Char) :
    (t.length > 64 → enforce_title t = (t.take 64, true)) ∧
    (t.length ≤ 64 → utf8Len t > 192 →
      enforce_title t = (truncate_by_bytes t 192, true)) ∧
    (t.length ≤ 64 → utf8Len t ≤ 192 → enforce_title t = (t, false)) := by
  refine ⟨fun h => ?_, fun h hb => ?_, fun h hb => ?_⟩
  · simp [enforce_title, h]
  · simp [enforce_title, Nat.not_lt.mpr h, hb]
  · simp [enforce_title, Nat.not_lt.mpr h, Nat.not_lt.mpr hb]

/-- C4 witness: the theorem applied to a 70-character title, which is cut to
exactly its first 64 characters with the truncation reported, and to a title
of 64 four-byte characters (256 bytes), where the byte fallback fires. -/
theorem enforce_title_correct_witness :
    enforce_title (List.replicate 70 'a') = (List.replicate 64 'a', true) ∧
    enforce_title (List.replicate 64 (Char.ofNat 128512)) =
      (truncate_by_bytes (List.replicate 64 (Char.ofNat 128512)) 192, true) := by
  constructor
  · have h := (enforce_title_correct (List.replicate 70 'a')).1 (by decide)
    rw [h]
    decide
  · exact (enforce_title_correct (List.replicate 64 (Char.ofNat 128512))).2.1
      (by decide) (by decide)

/-- C5: an empty digest is derived from the title via
`truncate_by_bytes(title, 54)` — and because byte truncation at nested
limits commutes, deriving from the already-enforced title gives exactly the
same digest as deriving from the pre-truncation title; every digest ends up
at most 120 bytes and the author at most 20 bytes. -/
theorem digest_author_enforcement_correct (title author digest : List Char) :
    resolve_digest (enforce_title title).1 [] = truncate_by_bytes title 54 ∧
    utf8Len (resolve_digest (enforce_title title).1 digest) ≤ 120 ∧
    utf8Len (resolve_author author) ≤ 20 := by
  refine ⟨?_, ?_, ?_⟩
  · have hderive :
        truncate_by_bytes (enforce_title title).1 54 = truncate_by_bytes title 54 := by
      unfold enforce_title
      by_cases h1 : title.length > 64
      · simp only [h1, if_true]
        exact truncate_take title (by omega)
      · simp only [h1, if_false]
        by_cases h2 : utf8Len title > 192
        · simp only [h2, if_true]
          exact truncate_truncate title (by omega)
        · simp [h2]
    have hfit : utf8Len (truncate_by_bytes title 54) ≤ 120 :=
      le_trans (truncate_utf8Len_le title 54) (by omega)
    simp [resolve_digest, hderive, truncate_noop _ _ hfit]
  · unfold resolve_digest
    exact truncate_utf8Len_le _ 120
  · unfold resolve_author
    by_cases h : author = []
    · simp [h, utf8Len]
    · simp only [h, if_false]
      exact truncate_utf8Len_le author 20

/-- C6 counterexample: for a title of 65 four-byte characters, the enforced
title (its first 64 characters) is 256 UTF-8 bytes long, violating the
claimed post-enforcement invariant `title ≤ 192 bytes`. -/
theorem draft_invariant_cex :
    ¬ utf8Len (enforce_title (List.replicate 65 (Char.ofNat 128512))).1 ≤ 192 := by
  decide

/-- C6 amended: after enforcement the title is at most 64 characters, and it
is at most 192 UTF-8 bytes whenever the original title was within 64
characters (the byte bound can fail only for titles cut by the character
rule); the author is at most 20 bytes and the digest at most 120 bytes. -/
theorem draft_invariant_amended (title author digest : List Char) :
    (enforce_title title).1.length ≤ 64 ∧
    (title.length ≤ 64 → utf8Len (enforce_title title).1 ≤ 192) ∧
    utf8Len (resolve_author author) ≤ 20 ∧
    utf8Len (resolve_digest (enforce_title title).1 digest) ≤ 120 := by
  refine ⟨?_, fun hc => ?_, ?_, ?_⟩
  · unfold enforce_title
    by_cases h1 : title.length > 64
    · simp [h1]
    · by_cases h2 : utf8Len title > 192
      · have := (truncate_pref title 192).length_le
        simp only [h1, if_false, h2, if_true]
        omega
      · simp only [h1, if_false, h2, if_true]
        omega
  · unfold enforce_title
    by_cases h2 : utf8Len title > 192
    · simp only [Nat.not_lt.mpr hc, if_false, h2, if_true]
      exact truncate_utf8Len_le title 192
    · simp only [Nat.not_lt.mpr hc, if_false, h2, if_true]
      omega
  · unfold resolve_author
    by_cases h : author = []
    · simp [h, utf8Len]
    · simp only [h, if_false]
      exact truncate_utf8Len_le author 20
  · unfold resolve_digest
    exact truncate_utf8Len_le _ 120

/-- C6 amended witness: the theorem applied at a concrete 3-character title,
author and digest, discharging the character-count hypothesis there. -/
theorem draft_invariant_amended_witness :
    utf8Len (enforce_title ['a', 'b', 'c']).1 ≤ 192 :=
  (draft_invariant_amended ['a', 'b', 'c'] ['x'] []).2.1 (by decide)

/-- C10: `get_access_token` raises on any response containing `errcode` at
all — even `errcode = 0` — while `upload_image` and the draft submission of
`create_draft` treat `errcode = 0` as success and raise only on a present
nonzero `errcode`. -/
theorem error_criterion_asymmetry :
    (∀ (now : Int) (resp : TokenResponse) (c : Int), resp.errcode = some c →
      (fetch_new_token now resp).outcome = .error c) ∧
    (∀ resp : UploadResponse, resp.errcode = some 0 →
      upload_image true resp = .ok resp.media_id (resp.url.getD [])) ∧
    (∀ (resp : UploadResponse) (c : Int), resp.errcode = some c → c ≠ 0 →
      upload_image true resp = .apiError c) ∧
    (∀ (π : Type) (payload : π) (r1 r2 : DraftResponse), r1.errcode = some 0 →
      submit_with_retry payload r1 r2 = ⟨.ok r1, 0, [payload]⟩) := by
  refine ⟨fun now resp c hc => ?_, fun resp hc => ?_,
    fun resp c hc h0 => ?_, fun π payload r1 r2 hc => ?_⟩
  · simp [fetch_new_token, hc]
  · simp [upload_image, hasNonzeroErr, hc]
  · simp [upload_image, hasNonzeroErr, hc, h0]
  · simp [submit_with_retry, hasNonzeroErr, hc]

/-- C10 witness: the theorem applied at concrete responses carrying
`errcode = 0`: the token fetch raises error 0, the upload succeeds, and the
draft submission succeeds without retrying; and at `errcode = 40013` the
upload raises. -/
theorem error_criterion_asymmetry_witness :
    (fetch_new_token 0 ⟨some 0, ['t'], none⟩).outcome = .error 0 ∧
    upload_image true ⟨some 0, some ['m'], none⟩ = .ok (some ['m']) [] ∧
    upload_image true ⟨some 40013, none, none⟩ = .apiError 40013 ∧
    submit_with_retry (0 : Nat) ⟨some 0, some ['d']⟩ ⟨none, none⟩ =
      ⟨.ok ⟨some 0, some ['d']⟩, 0, [0]⟩ :=
  ⟨error_criterion_asymmetry.1 0 ⟨some 0, ['t'], none⟩ 0 rfl,
    by simpa using error_criterion_asymmetry.2.1 ⟨some 0, some ['m'], none⟩ rfl,
    error_criterion_asymmetry.2.2.1 ⟨some 40013, none, none⟩ 40013 rfl (by decide),
    error_criterion_asymmetry.2.2.2 Nat 0 ⟨some 0, some ['d']⟩ ⟨none, none⟩ rfl⟩

/-! ### A scanner model of `re.sub`

The regex rewrites in the source use a fixed handful of concrete patterns.
Each pattern is hand-compiled to a matcher that, applied to a suffix of the
document, decides whether a match of the pattern starts at the head of that
suffix and, if so, returns the length of the (always non-empty) match and its
replacement text.  `reSub` then scans left to right, replacing each match and
resuming after it, exactly as `re.sub` does; `reSubOnce` stops after the
first match (`count=1`). -/

/-- Fuelled scanning loop of `re.sub` with a matcher `m`. -/
def reSubF (m : List Char → Option (Nat × List Char)) :
    Nat → List Char → List Char
  | 0, s => s
  | _ + 1, [] => []
  | f + 1, c :: rest =>
    match m (c :: rest) with
    | some (k, repl) => repl ++ reSubF m f (rest.drop (k - 1))
    | none => c :: reSubF m f rest

/-- `re.sub(pattern, repl, s)` for the pattern compiled to matcher `m`. -/
def reSub (m : List Char → Option (Nat × List Char)) (s : List Char) :
    List Char :=
  reSubF m s.length s

/-- Fuelled scanning loop of `re.sub(..., count=1)`. -/
def reSubOnceF (m : List Char → Option (Nat × List Char)) :
    Nat → List Char → List Char
  | 0, s => s
  | _ + 1, [] => []
  | f + 1, c :: rest =>
    match m (c :: rest) with
    | some (k, repl) => repl ++ rest.drop (k - 1)
    | none => c :: reSubOnceF m f rest

/-- `re.sub(pattern, repl, s, count=1)` for the pattern compiled to `m`. -/
def reSubOnce (m : List Char → Option (Nat × List Char)) (s : List Char) :
    List Char :=
  reSubOnceF m s.length s

theorem reSubF_fuel (m : List Char → Option (Nat × List Char)) :
    ∀ f g s, s.length ≤ f → s.length ≤ g → reSubF m f s = reSubF m g s := by
  intro f
  induction f with
  | zero =>
    intro g s hf _
    have : s = [] := List.length_eq_zero.mp (Nat.le_zero.mp hf)
    subst this
    cases g <;> rfl
  | succ f ih =>
    intro g s hf hg
    match s, g with
    | [], 0 => rfl
    | [], g + 1 => rfl
    | c :: rest, g + 1 =>
      simp only [reSubF]
      match m (c :: rest) with
      | some (k, repl) =>
        simp only []
        congr 1
        apply ih
        · have := List.length_drop (k - 1) rest
          simp only [List.length_cons] at hf
          omega
        · have := List.length_drop (k - 1) rest
          simp only [List.length_cons] at hg
          omega
      | none =>
        simp only [List.cons.injEq, true_and]
        apply ih
        · simp only [List.length_cons] at hf
          omega
        · simp only [List.length_cons] at hg
          omega

theorem reSub_nil (m : List Char → Option (Nat × List Char)) :
    reSub m [] = [] := rfl

theorem reSub_cons_none (m : List Char → Option (Nat × List Char))
    (c : Char) (rest : List Char) (h : m (c :: rest) = none) :
    reSub m (c :: rest) = c :: reSub m rest := by
  simp only [reSub, List.length_cons, reSubF, h]

theorem reSub_cons_some (m : List Char → Option (Nat × List Char))
    (c : Char) (rest : List Char) (k : Nat) (repl : List Char)
    (h : m (c :: rest) = some (k, repl)) :
    reSub m (c :: rest) = repl ++ reSub m (rest.drop (k - 1)) := by
  simp only [reSub, List.length_cons, reSubF, h]
  congr 1
  apply reSubF_fuel
  · have := List.length_drop (k - 1) rest
    omega
  · exact Nat.le_refl _

theorem reSub_append_skip (m : List Char → Option (Nat × List Char)) :
    ∀ t r, (∀ u v, t = u ++ v → v ≠ [] → m (v ++ r) = none) →
      reSub m (t ++ r) = t ++ reSub m r := by
  intro t
  induction t with
  | nil => intro r _; rfl
  | cons c t0 ih =>
    intro r h
    have hm : m ((c :: t0) ++ r) = none :=
      h [] (c :: t0) rfl (by simp)
    rw [List.cons_append, reSub_cons_none m c (t0 ++ r) hm]
    rw [ih r (fun u v hu hv => h (c :: u) v (by simp [hu]) hv)]
    rfl

theorem reSub_id_of_nomatch (m : List Char → Option (Nat × List Char))
    (t : List Char) (h : ∀ u v, t = u ++ v → v ≠ [] → m v = none) :
    reSub m t = t := by
  have := reSub_append_skip m t []
    (fun u v hu hv => by simpa using h u v hu hv)
  simpa [reSub_nil] using this

theorem reSubOnceF_fuel (m : List Char → Option (Nat × List Char)) :
    ∀ f g s, s.length ≤ f → s.length ≤ g → reSubOnceF m f s = reSubOnceF m g s := by
  intro f
  induction f with
  | zero =>
    intro g s hf _
    have : s = [] := List.length_eq_zero.mp (Nat.le_zero.mp hf)
    subst this
    cases g <;> rfl
  | succ f ih =>
    intro g s hf hg
    match s, g with
    | [], 0 => rfl
    | [], g + 1 => rfl
    | c :: rest, g + 1 =>
      simp only [reSubOnceF]
      match m (c :: rest) with
      | some (k, repl) => rfl
      | none =>
        simp only [List.cons.injEq, true_and]
        apply ih
        · simp only [List.length_cons] at hf
          omega
        · simp only [List.length_cons] at hg
          omega

theorem reSubOnce_cons_none (m : List Char → Option (Nat × List Char))
    (c : Char) (rest : List Char) (h : m (c :: rest) = none) :
    reSubOnce m (c :: rest) = c :: reSubOnce m rest := by
  simp only [reSubOnce, List.length_cons, reSubOnceF, h]

theorem reSubOnce_cons_some (m : List Char → Option (Nat × List Char))
    (c : Char) (rest : List Char) (k : Nat) (repl : List Char)
    (h : m (c :: rest) = some (k, repl)) :
    reSubOnce m (c :: rest) = repl ++ rest.drop (k - 1) := by
  simp only [reSubOnce, List.length_cons, reSubOnceF, h]

theorem reSubOnce_append_skip (m : List Char → Option (Nat × List Char)) :
    ∀ t r, (∀ u v, t = u ++ v → v ≠ [] → m (v ++ r) = none) →
      reSubOnce m (t ++ r) = t ++ reSubOnce m r := by
  intro t
  induction t with
  | nil => intro r _; rfl
  | cons c t0 ih =>
    intro r h
    have hm : m ((c :: t0) ++ r) = none :=
      h [] (c :: t0) rfl (by simp)
    rw [List.cons_append, reSubOnce_cons_none m c (t0 ++ r) hm]
    rw [ih r (fun u v hu hv => h (c :: u) v (by simp [hu]) hv)]
    rfl

theorem reSubOnce_nil (m : List Char → Option (Nat × List Char)) :
    reSubOnce m [] = [] := rfl

theorem reSubOnce_id_of_nomatch (m : List Char → Option (Nat × List Char))
    (t : List Char) (h : ∀ u v, t = u ++ v → v ≠ [] → m v = none) :
    reSubOnce m t = t := by
  have := reSubOnce_append_skip m t []
    (fun u v hu hv => by simpa using h u v hu hv)
  simpa [reSubOnce_nil] using this

/-- First occurrence split: `splitAtFirst p s = some (a, c, b)` iff
`s = a ++ c :: b` where `c` is the first character satisfying `p`. -/
def splitAtFirst (p : Char → Bool) : List Char → Option (List Char × Char × List Char)
  | [] => none
  | c :: rest =>
    if p c then some ([], c, rest)
    else (splitAtFirst p rest).map (fun x => (c :: x.1, x.2.1, x.2.2))

theorem splitAtFirst_sound (p : Char → Bool) :
    ∀ s a mc b, splitAtFirst p s = some (a, mc, b) →
      s = a ++ mc :: b ∧ p mc = true ∧ ∀ c ∈ a, p c = false := by
  intro s
  induction s with
  | nil => intro a mc b h; simp [splitAtFirst] at h
  | cons c rest ih =>
    intro a mc b h
    by_cases hc : p c
    · simp only [splitAtFirst, hc, if_true, Option.some.injEq, Prod.mk.injEq] at h
      obtain ⟨ha, hm, hb⟩ := h
      subst ha; subst hm; subst hb
      exact ⟨rfl, hc, by simp⟩
    · cases hrec : splitAtFirst p rest with
      | none => simp [splitAtFirst, hc, hrec] at h
      | some x =>
        obtain ⟨a0, m0, b0⟩ := x
        simp only [splitAtFirst, hc, if_false, Bool.false_eq_true, hrec,
          Option.map_some', Option.some.injEq, Prod.mk.injEq] at h
        obtain ⟨ha, hm, hb⟩ := h
        obtain ⟨h1, h2, h3⟩ := ih a0 m0 b0 hrec
        subst hm; subst hb; subst ha
        refine ⟨by simp [h1], h2, ?_⟩
        intro x hx
        rcases List.mem_cons.mp hx with hx | hx
        · subst hx; simpa using hc
        · exact h3 x hx

theorem splitAtFirst_complete (p : Char → Bool) :
    ∀ a mc b, (∀ c ∈ a, p c = false) → p mc = true →
      splitAtFirst p (a ++ mc :: b) = some (a, mc, b) := by
  intro a
  induction a with
  | nil => intro mc b _ hm; simp [splitAtFirst, hm]
  | cons c a0 ih =>
    intro mc b ha hm
    have hc : p c = false := ha c (by simp)
    have := ih mc b (fun x hx => ha x (by simp [hx])) hm
    simp [splitAtFirst, hc, this]

theorem splitAtFirst_none (p : Char → Bool) :
    ∀ s, (∀ c ∈ s, p c = false) → splitAtFirst p s = none := by
  intro s
  induction s with
  | nil => intro _; rfl
  | cons c rest ih =>
    intro h
    have hc : p c = false := h c (by simp)
    simp [splitAtFirst, hc, ih (fun x hx => h x (by simp [hx]))]

/-! ### Editor-compatibility rewrite (`_fix_wechat_editor_issues`, publisher.py:421-473)

The four rewrites are `re.sub` passes with the patterns
1. `>\s+<` -> `><`
2. `([a-z-]+:\s*[^;]+);` -> append ` !important` unless the declaration
   already contains `!important`
3. `style="(?![^"]*text-indent)([^"]*)"` -> append ` text-indent: 0 !important;`
4. `(box-shadow|text-shadow|transform|transition):[^;]+;?\s*` -> removed.
Each pattern is compiled to a matcher below; the correspondence is
position-for-position: a match starts at a given suffix exactly when the
Python pattern matches there, with the same extent and replacement. -/

def isPySpace (c : Char) : Bool :=
  c == ' ' || c == '\t' || c == '\n' || c == '\r' || c == Char.ofNat 11 || c == Char.ofNat 12

def isDeclChar (c : Char) : Bool :=
  (decide ('a' ≤ c) && decide (c ≤ 'z')) || c == '-'

def containsB (pat : List Char) : List Char → Bool
  | [] => pat.isEmpty
  | c :: rest => pat.isPrefixOf (c :: rest) || containsB pat rest

def importantStr : List Char := "!important".toList
def impSuffix : List Char := " !important;".toList
def dq : Char := Char.ofNat 34
def styleKey : List Char := "style=".toList ++ [dq]
def textIndentStr : List Char := "text-indent".toList
def tiSuffix : List Char := " text-indent: 0 !important;".toList
def boxShadowStr : List Char := "box-shadow".toList
def textShadowStr : List Char := "text-shadow".toList
def transformStr : List Char := "transform".toList
def transitionStr : List Char := "transition".toList

def wsGapMatch : List Char → Option (Nat × List Char)
  | '>' :: rest =>
    let w := rest.takeWhile isPySpace
    if w.isEmpty then none
    else
      match rest.dropWhile isPySpace with
      | '<' :: _ => some (w.length + 2, ['>', '<'])
      | _ => none
  | _ => none

def declMatch : List Char → Option (Nat × List Char) := fun s =>
  let run := s.takeWhile isDeclChar
  if run.isEmpty then none
  else
    match s.dropWhile isDeclChar with
    | ':' :: rest2 =>
      match splitAtFirst (fun c => c == ';') rest2 with
      | some (v, _, _) =>
        if v.isEmpty then none
        else
          let group := run ++ ':' :: v
          if containsB importantStr group then some (group.length + 1, group ++ [';'])
          else some (group.length + 1, group ++ impSuffix)
      | none => none
    | _ => none

def styleMatch : List Char → Option (Nat × List Char) := fun s =>
  if styleKey.isPrefixOf s then
    match splitAtFirst (fun c => c == dq) (s.drop styleKey.length) with
    | some (v, _, _) =>
      if containsB textIndentStr v then none
      else some (styleKey.length + v.length + 1, styleKey ++ v ++ tiSuffix ++ [dq])
    | none => none
  else none

def stripDeclMatch (prop : List Char) : List Char → Option (Nat × List Char) := fun s =>
  if (prop ++ [':']).isPrefixOf s then
    let rest := s.drop (prop.length + 1)
    match splitAtFirst (fun c => c == ';') rest with
    | none => if rest.isEmpty then none else some (prop.length + 1 + rest.length, [])
    | some (v, _, b) =>
      if v.isEmpty then none
      else some (prop.length + 1 + v.length + 1 + (b.takeWhile isPySpace).length, [])
  else none

def fix_step1 : List Char → List Char := reSub wsGapMatch
def fix_step2 : List Char → List Char := reSub declMatch
def fix_step3 : List Char → List Char := reSub styleMatch
def fix_step4 (prop : List Char) : List Char → List Char := reSub (stripDeclMatch prop)

def fix_wechat_editor_issues (content : List Char) : List Char :=
  fix_step4 transitionStr (fix_step4 transformStr (fix_step4 textShadowStr
    (fix_step4 boxShadowStr (fix_step3 (fix_step2 (fix_step1 content))))))


theorem takeWhile_append_stop (p : Char → Bool) :
    ∀ (a : List Char) (x : Char) (b : List Char),
      (∀ c ∈ a, p c = true) → p x = false →
      (a ++ x :: b).takeWhile p = a := by
  intro a
  induction a with
  | nil => intro x b _ hx; simp [List.takeWhile_cons, hx]
  | cons c a0 ih =>
    intro x b ha hx
    have hc : p c = true := ha c (by simp)
    simp [List.takeWhile_cons, hc, ih x b (fun d hd => ha d (by simp [hd])) hx]

theorem dropWhile_append_stop (p : Char → Bool) :
    ∀ (a : List Char) (x : Char) (b : List Char),
      (∀ c ∈ a, p c = true) → p x = false →
      (a ++ x :: b).dropWhile p = x :: b := by
  intro a
  induction a with
  | nil => intro x b _ hx; simp [List.dropWhile_cons, hx]
  | cons c a0 ih =>
    intro x b ha hx
    have hc : p c = true := ha c (by simp)
    simp [List.dropWhile_cons, hc, ih x b (fun d hd => ha d (by simp [hd])) hx]

theorem isPrefixOf_append_self : ∀ a b : List Char, a.isPrefixOf (a ++ b) = true := by
  intro a
  induction a with
  | nil => intro b; simp [List.isPrefixOf]
  | cons c a0 ih => intro b; simp [List.isPrefixOf, ih]

/-- C9 counterexample: the editor-compatibility rewrite is not idempotent.
On this input the first pass appends `!important` inside a declaration whose
later removal by the `box-shadow` strip creates a fresh `color: red;`
declaration, which the second pass then rewrites again. -/
theorem editor_fix_not_idem :
    fix_wechat_editor_issues
        (fix_wechat_editor_issues ("color: rbox-shadow:q;ed;".toList)) ≠
      fix_wechat_editor_issues ("color: rbox-shadow:q;ed;".toList) := by
  decide

/-- C9 amended: the rewrite applied twice equals the rewrite applied once for
every input whose once-rewritten form admits no further rewrite by any of the
four stages (whitespace-gap removal, `!important` insertion, `text-indent`
insertion, unsupported-declaration stripping); unconditionally, a matched CSS
declaration that already contains `!important` is replaced by itself (the
suffix is never appended a second time), and a `style` attribute whose value
already contains `text-indent` is not matched at all (so `text-indent: 0
!important;` is never appended a second time). -/
theorem editor_fix_idem_amended :
    (∀ s : List Char,
      fix_step1 (fix_wechat_editor_issues s) = fix_wechat_editor_issues s →
      fix_step2 (fix_wechat_editor_issues s) = fix_wechat_editor_issues s →
      fix_step3 (fix_wechat_editor_issues s) = fix_wechat_editor_issues s →
      (∀ prop ∈ [boxShadowStr, textShadowStr, transformStr, transitionStr],
        fix_step4 prop (fix_wechat_editor_issues s) = fix_wechat_editor_issues s) →
      fix_wechat_editor_issues (fix_wechat_editor_issues s) =
        fix_wechat_editor_issues s) ∧
    (∀ run v b : List Char, run ≠ [] → (∀ c ∈ run, isDeclChar c = true) →
      v ≠ [] → (∀ c ∈ v, (c == ';') = false) →
      containsB importantStr (run ++ ':' :: v) = true →
      declMatch (run ++ ':' :: v ++ ';' :: b) =
        some ((run ++ ':' :: v).length + 1, (run ++ ':' :: v) ++ [';'])) ∧
    (∀ v rest : List Char, (∀ c ∈ v, (c == dq) = false) →
      containsB textIndentStr v = true →
      styleMatch (styleKey ++ v ++ dq :: rest) = none) := by
  refine ⟨fun s h1 h2 h3 h4 => ?_, fun run v b hrn hra hvn hva himp => ?_,
    fun v rest hva hti => ?_⟩
  · have hb := h4 boxShadowStr (by simp)
    have hts := h4 textShadowStr (by simp)
    have htf := h4 transformStr (by simp)
    have htr := h4 transitionStr (by simp)
    calc fix_wechat_editor_issues (fix_wechat_editor_issues s)
        = fix_step4 transitionStr (fix_step4 transformStr (fix_step4 textShadowStr
            (fix_step4 boxShadowStr (fix_step3 (fix_step2 (fix_step1
              (fix_wechat_editor_issues s))))))) := rfl
      _ = fix_wechat_editor_issues s := by
          rw [h1, h2, h3, hb, hts, htf, htr]
  · have ht : (run ++ ':' :: (v ++ ';' :: b)).takeWhile isDeclChar = run :=
      takeWhile_append_stop _ run ':' _ hra (by decide)
    have hd : (run ++ ':' :: (v ++ ';' :: b)).dropWhile isDeclChar =
        ':' :: (v ++ ';' :: b) :=
      dropWhile_append_stop _ run ':' _ hra (by decide)
    have hs : splitAtFirst (fun c => c == ';') (v ++ ';' :: b) = some (v, ';', b) :=
      splitAtFirst_complete _ v ';' b hva (by decide)
    have hrE : run.isEmpty = false := by
      cases run with
      | nil => exact absurd rfl hrn
      | cons _ _ => rfl
    have hvE : v.isEmpty = false := by
      cases v with
      | nil => exact absurd rfl hvn
      | cons _ _ => rfl
    simp [declMatch, ht, hd, hs, hrE, hvE, himp]
  · have hp : styleKey.isPrefixOf (styleKey ++ (v ++ dq :: rest)) = true :=
      isPrefixOf_append_self _ _
    have hdrop : (styleKey ++ (v ++ dq :: rest)).drop styleKey.length =
        v ++ dq :: rest := List.drop_left _ _
    have hs : splitAtFirst (fun c => c == dq) (v ++ dq :: rest) =
        some (v, dq, rest) :=
      splitAtFirst_complete _ v dq rest hva (by simp)
    simp [styleMatch, hp, hdrop, hs, hti]

/-- Concrete input for the C9 witness: a paragraph with one styled
declaration; its once-rewritten form is a fixed point of all four stages. -/
def editorFixWitnessInput : List Char :=
  "<p style=".toList ++ [dq] ++ "color: red;".toList ++ [dq] ++ ">hi</p>".toList

/-- C9 amended witness: the theorem applied at a concrete input whose
once-rewritten form is stage-fixed (idempotence there), at a concrete
declaration already containing `!important`, and at a concrete style value
already containing `text-indent`. -/
theorem editor_fix_idem_amended_witness :
    fix_wechat_editor_issues (fix_wechat_editor_issues editorFixWitnessInput) =
      fix_wechat_editor_issues editorFixWitnessInput ∧
    declMatch ("color".toList ++ ':' :: " red !important".toList ++ ';' :: []) =
      some (("color".toList ++ ':' :: " red !important".toList).length + 1,
        ("color".toList ++ ':' :: " red !important".toList) ++ [';']) ∧
    styleMatch (styleKey ++ "text-indent: 0".toList ++ dq :: "x".toList) = none :=
  ⟨editor_fix_idem_amended.1 editorFixWitnessInput (by decide) (by decide)
      (by decide) (by intro prop hp; fin_cases hp <;> decide),
    editor_fix_idem_amended.2.1 ("color".toList) (" red !important".toList) []
      (by decide) (by decide) (by decide) (by decide) (by decide),
    editor_fix_idem_amended.2.2 ("text-indent: 0".toList) ("x".toList)
      (by decide) (by decide)⟩

/-! ### Inline image substitution (`_upload_content_images`, publisher.py:357-419)

The pattern `<img([^>]*?)src=["\']([^"\']+)["\']([^>]*?)>` is compiled to a
matcher: at a position starting with `<img`, the lazy first group grows
character by character (never across `>`), trying at each position to read
`src=`, an opening quote, a non-empty quote-free value, the closing quote
(the first quote after the value starts) and then the first `>` after it;
the first position where all of this succeeds yields the match.  The
per-match replacement implements `replace_image` (publisher.py:376-411):
absolute `http(s)` URLs, paths containing `cover` (case-insensitively,
`Char.toLower` standing in for `str.lower`), missing files, failed uploads
and uploads returning no URL all leave the matched tag unchanged; a
successful upload substitutes the returned URL for the `src` value,
double-quoted, keeping both attribute groups verbatim. -/

def squote : Char := Char.ofNat 39

def isQuoteCh (c : Char) : Bool := c == dq || c == squote

def srcEq : List Char := ['s', 'r', 'c', '=']

def imgOpen : List Char := ['<', 'i', 'm', 'g']

def httpPre : List Char := "http://".toList

def httpsPre : List Char := "https://".toList

def coverStr : List Char := "cover".toList

def lowerList (s : List Char) : List Char := s.map Char.toLower

/-- Result of one `upload_image` call as seen by `replace_image`: either the
pair `(media_id, url)` — with `url` possibly empty — or a raised exception. -/
inductive UploadOutcome
  | success (url : List Char)
  | failure
deriving DecidableEq

/-- What the filesystem and the upload endpoint would answer for one `src`
path resolved against the base directory. -/
structure ImgEnv where
  fileExists : Bool
  upload : UploadOutcome
deriving DecidableEq

/-- The text `<img{g1}src={q1}{src}{q2}{g3}>` of one matched tag. -/
def renderImgTag (g1 : List Char) (q1 : Char) (src : List Char) (q2 : Char)
    (g3 : List Char) : List Char :=
  '<' :: 'i' :: 'm' :: 'g' ::
    (g1 ++ (srcEq ++ (q1 :: (src ++ (q2 :: (g3 ++ ['>']))))))

/-- `replace_image` (publisher.py:376-411). -/
def replace_image (env : List Char → ImgEnv) (g1 : List Char) (q1 : Char)
    (src : List Char) (q2 : Char) (g3 : List Char) : List Char :=
  if (httpPre.isPrefixOf src || httpsPre.isPrefixOf src) = true then
    renderImgTag g1 q1 src q2 g3
  else if containsB coverStr (lowerList src) = true then
    renderImgTag g1 q1 src q2 g3
  else if (env src).fileExists = false then renderImgTag g1 q1 src q2 g3
  else
    match (env src).upload with
    | .success url =>
      if url.isEmpty then renderImgTag g1 q1 src q2 g3
      else renderImgTag g1 dq url dq g3
    | .failure => renderImgTag g1 q1 src q2 g3

/-- The candidate attempt of the lazy matcher at one position: succeeds only
when the position starts with `src=` followed by a quote, a non-empty
quote-free value, a closing quote and a later `>`. -/
def imgTryHere : List Char → Option (Char × List Char × Char × List Char)
  | 's' :: 'r' :: 'c' :: '=' :: q1 :: rest1 =>
    if isQuoteCh q1 then
      match splitAtFirst isQuoteCh rest1 with
      | some (src, q2, rest2) =>
        if src.isEmpty then none
        else
          match splitAtFirst (fun x => x == '>') rest2 with
          | some (g3, _, _) => some (q1, src, q2, g3)
          | none => none
      | none => none
    else none
  | _ => none

/-- Lazy scan for the first successful `src=` candidate after `<img`; `acc`
accumulates the first capture group.  Stops at `>`. -/
def imgScan : List Char → List Char →
    Option (List Char × Char × List Char × Char × List Char)
  | _, [] => none
  | acc, c :: t =>
    if c == '>' then none
    else
      match imgTryHere (c :: t) with
      | some (q1, src, q2, g3) => some (acc, q1, src, q2, g3)
      | none => imgScan (acc ++ [c]) t

/-- The compiled `<img([^>]*?)src=["\']([^"\']+)["\']([^>]*?)>` matcher with
the `replace_image` substitution. -/
def imgUploadMatch (env : List Char → ImgEnv) :
    List Char → Option (Nat × List Char) := fun s =>
  if imgOpen.isPrefixOf s then
    match imgScan [] (s.drop 4) with
    | some (g1, q1, src, q2, g3) =>
      some (4 + g1.length + 4 + 1 + src.length + 1 + g3.length + 1,
        replace_image env g1 q1 src q2 g3)
    | none => none
  else none

/-- `_upload_content_images` (publisher.py:357-419), with the filesystem and
upload endpoint abstracted into `env`. -/
def upload_content_images (env : List Char → ImgEnv) (content : List Char) :
    List Char :=
  reSub (imgUploadMatch env) content

theorem prefix_stable : ∀ pat x y : List Char, pat.length ≤ x.length →
    pat.isPrefixOf (x ++ y) = pat.isPrefixOf x := by
  intro pat
  induction pat with
  | nil => intro x y _; simp [List.isPrefixOf]
  | cons p ps ih =>
    intro x y hl
    cases x with
    | nil => simp at hl
    | cons a xs =>
      simp only [List.cons_append, List.isPrefixOf, List.append_eq]
      rw [ih xs y (by simpa using hl)]

/-- Checks `p` on every non-empty suffix of the list. -/
def allSuffixes (p : List Char → Bool) : List Char → Bool
  | [] => true
  | c :: t => p (c :: t) && allSuffixes p t

theorem allSuffixes_sound (p : List Char → Bool) :
    ∀ u w, w ≠ [] → allSuffixes p (u ++ w) = true → p w = true := by
  intro u
  induction u with
  | nil =>
    intro w hw h
    cases w with
    | nil => exact absurd rfl hw
    | cons c t =>
      simp only [List.nil_append, allSuffixes, Bool.and_eq_true] at h
      exact h.1
  | cons c u0 ih =>
    intro w hw h
    simp only [List.cons_append, allSuffixes, Bool.and_eq_true] at h
    exact ih w hw h.2

/-- No occurrence of `src=` starts strictly inside `g1` when `g1` is
followed by the literal `src=` of the rendered tag. -/
def srcFreeB (g1 : List Char) : Bool :=
  allSuffixes (fun w => !(srcEq.isPrefixOf (w ++ srcEq))) g1

theorem imgTryHere_src (s : List Char) :
    imgTryHere s = none ∨ srcEq.isPrefixOf s = true := by
  unfold imgTryHere
  split
  · right; simp [srcEq, List.isPrefixOf]
  · left; rfl

theorem reSub_step (m : List Char → Option (Nat × List Char)) {s : List Char}
    {k : Nat} {repl : List Char} (h : m s = some (k, repl)) (hs : s ≠ [])
    (hk : 1 ≤ k) : reSub m s = repl ++ reSub m (s.drop k) := by
  cases s with
  | nil => exact absurd rfl hs
  | cons c rest =>
    rw [reSub_cons_some m c rest k repl h]
    cases k with
    | zero => omega
    | succ k0 => rfl

theorem imgScan_full (q1 q2 : Char) (src g3 tail : List Char)
    (hq1 : isQuoteCh q1 = true)
    (hsrc_ne : src.isEmpty = false) (hsrc : ∀ c ∈ src, isQuoteCh c = false)
    (hq2 : isQuoteCh q2 = true)
    (hg3 : ∀ c ∈ g3, (c == '>') = false) :
    ∀ g1 acc, (∀ c ∈ g1, (c == '>') = false) → srcFreeB g1 = true →
      imgScan acc (g1 ++ (srcEq ++ (q1 :: (src ++ (q2 :: (g3 ++ ('>' :: tail))))))) =
        some (acc ++ g1, q1, src, q2, g3) := by
  intro g1
  induction g1 with
  | nil =>
    intro acc _ _
    have hs1 : splitAtFirst isQuoteCh (src ++ q2 :: (g3 ++ '>' :: tail)) =
        some (src, q2, g3 ++ '>' :: tail) :=
      splitAtFirst_complete _ src q2 _ hsrc hq2
    have hs2 : splitAtFirst (fun x => x == '>') (g3 ++ '>' :: tail) =
        some (g3, '>', tail) :=
      splitAtFirst_complete _ g3 '>' tail hg3 (by simp)
    simp [imgScan, srcEq, imgTryHere, hq1, hs1, hs2, hsrc_ne]
  | cons c g10 ih =>
    intro acc hgt hfree
    have hcgt : (c == '>') = false := hgt c (by simp)
    simp only [srcFreeB, allSuffixes, Bool.and_eq_true] at hfree
    obtain ⟨hp1, hp2⟩ := hfree
    have hpre : srcEq.isPrefixOf ((c :: g10) ++ srcEq) = false := by
      simpa using hp1
    have htry : imgTryHere
        (c :: (g10 ++ (srcEq ++ (q1 :: (src ++ (q2 :: (g3 ++ ('>' :: tail)))))))) =
        none := by
      rcases imgTryHere_src
        (c :: (g10 ++ (srcEq ++ (q1 :: (src ++ (q2 :: (g3 ++ ('>' :: tail))))))))
        with h | h
      · exact h
      · exfalso
        rw [show c :: (g10 ++ (srcEq ++ (q1 :: (src ++ (q2 :: (g3 ++ ('>' :: tail))))))) =
            ((c :: g10) ++ srcEq) ++ (q1 :: (src ++ (q2 :: (g3 ++ ('>' :: tail))))) by
          simp] at h
        rw [prefix_stable srcEq ((c :: g10) ++ srcEq) _ (by simp [srcEq])] at h
        rw [hpre] at h
        cases h
    rw [List.cons_append]
    rw [show imgScan acc
        (c :: (g10 ++ (srcEq ++ (q1 :: (src ++ (q2 :: (g3 ++ ('>' :: tail)))))))) =
        imgScan (acc ++ [c])
          (g10 ++ (srcEq ++ (q1 :: (src ++ (q2 :: (g3 ++ ('>' :: tail))))))) by
      simp only [imgScan, hcgt, Bool.false_eq_true, if_false, htry]]
    rw [ih (acc ++ [c]) (fun d hd => hgt d (by simp [hd]))
      (by simpa [srcFreeB] using hp2)]
    simp

theorem renderImgTag_len (g1 : List Char) (q1 : Char) (src : List Char)
    (q2 : Char) (g3 : List Char) :
    (renderImgTag g1 q1 src q2 g3).length =
      4 + g1.length + 4 + 1 + src.length + 1 + g3.length + 1 := by
  simp [renderImgTag, srcEq]
  omega

theorem imgUploadMatch_tag (env : List Char → ImgEnv) (g1 : List Char)
    (q1 : Char) (src : List Char) (q2 : Char) (g3 r : List Char)
    (hg1 : ∀ c ∈ g1, (c == '>') = false) (hfree : srcFreeB g1 = true)
    (hq1 : isQuoteCh q1 = true) (hsrc_ne : src.isEmpty = false)
    (hsrc : ∀ c ∈ src, isQuoteCh c = false) (hq2 : isQuoteCh q2 = true)
    (hg3 : ∀ c ∈ g3, (c == '>') = false) :
    imgUploadMatch env (renderImgTag g1 q1 src q2 g3 ++ r) =
      some ((renderImgTag g1 q1 src q2 g3).length,
        replace_image env g1 q1 src q2 g3) := by
  have hform : renderImgTag g1 q1 src q2 g3 ++ r =
      '<' :: 'i' :: 'm' :: 'g' ::
        (g1 ++ (srcEq ++ (q1 :: (src ++ (q2 :: (g3 ++ ('>' :: r))))))) := by
    simp [renderImgTag]
  have hscan := imgScan_full q1 q2 src g3 r hq1 hsrc_ne hsrc hq2 hg3 g1 [] hg1 hfree
  simp only [List.nil_append] at hscan
  have hpre : imgOpen.isPrefixOf ('<' :: 'i' :: 'm' :: 'g' ::
      (g1 ++ (srcEq ++ (q1 :: (src ++ (q2 :: (g3 ++ ('>' :: r)))))))) = true := by
    simp [imgOpen, List.isPrefixOf]
  have hdrop : ('<' :: 'i' :: 'm' :: 'g' ::
      (g1 ++ (srcEq ++ (q1 :: (src ++ (q2 :: (g3 ++ ('>' :: r)))))))).drop 4 =
      g1 ++ (srcEq ++ (q1 :: (src ++ (q2 :: (g3 ++ ('>' :: r)))))) := rfl
  rw [hform]
  simp only [imgUploadMatch, hpre, if_true, hdrop, hscan]
  rw [renderImgTag_len]

theorem imgUploadMatch_nonlt (env : List Char → ImgEnv) (c : Char)
    (t : List Char) (h : c ≠ '<') : imgUploadMatch env (c :: t) = none := by
  have hb : ('<' == c) = false := by
    rcases hbe : ('<' == c) with _ | _
    · rfl
    · exact absurd (eq_of_beq hbe).symm h
  simp [imgUploadMatch, imgOpen, List.isPrefixOf, hb]

/-- A document split into literal text runs and `<img ... src=... >` tags. -/
inductive CPiece where
  | rawText (s : List Char)
  | imgTag (g1 : List Char) (q1 : Char) (src : List Char) (q2 : Char) (g3 : List Char)
deriving DecidableEq

def renderPiece : CPiece → List Char
  | .rawText s => s
  | .imgTag g1 q1 src q2 g3 => renderImgTag g1 q1 src q2 g3

def renderDoc (ps : List CPiece) : List Char := (ps.map renderPiece).flatten

def processPiece (env : List Char → ImgEnv) : CPiece → List Char
  | .rawText s => s
  | .imgTag g1 q1 src q2 g3 => replace_image env g1 q1 src q2 g3

/-- Well-formedness of a piece: text contains no `<`; a tag's attribute
groups contain no `>`, no `src=` occurrence starts inside the first group,
the quotes are quote characters and the value is non-empty and quote-free. -/
def pieceWFB : CPiece → Bool
  | .rawText s => s.all (fun c => !(c == '<'))
  | .imgTag g1 q1 src q2 g3 =>
    g1.all (fun c => !(c == '>')) && srcFreeB g1 && isQuoteCh q1 &&
    !src.isEmpty && src.all (fun c => !(isQuoteCh c)) && isQuoteCh q2 &&
    g3.all (fun c => !(c == '>'))

theorem upload_content_images_pieces (env : List Char → ImgEnv) :
    ∀ ps : List CPiece, ps.all pieceWFB = true →
      upload_content_images env (renderDoc ps) =
        (ps.map (processPiece env)).flatten := by
  intro ps
  induction ps with
  | nil => intro _; rfl
  | cons p ps ih =>
    intro h
    simp only [List.all_cons, Bool.and_eq_true] at h
    obtain ⟨hp, hps⟩ := h
    have ih' : reSub (imgUploadMatch env) (renderDoc ps) =
        (ps.map (processPiece env)).flatten := ih hps
    cases p with
    | rawText s =>
      have hlt : ∀ c ∈ s, c ≠ '<' := by
        intro c hc hEq
        have := List.all_eq_true.mp hp c hc
        subst hEq
        simp at this
      have hskip : reSub (imgUploadMatch env) (s ++ renderDoc ps) =
          s ++ reSub (imgUploadMatch env) (renderDoc ps) := by
        apply reSub_append_skip
        intro u w hw hne
        cases w with
        | nil => exact absurd rfl hne
        | cons c w0 =>
          have hc : c ∈ s := by rw [hw]; simp
          exact imgUploadMatch_nonlt env c _ (hlt c hc)
      calc upload_content_images env (renderDoc (CPiece.rawText s :: ps))
          = reSub (imgUploadMatch env) (s ++ renderDoc ps) := by
            simp [upload_content_images, renderDoc, renderPiece]
        _ = s ++ reSub (imgUploadMatch env) (renderDoc ps) := hskip
        _ = s ++ (ps.map (processPiece env)).flatten := by rw [ih']
        _ = ((CPiece.rawText s :: ps).map (processPiece env)).flatten := by
            simp [processPiece]
    | imgTag g1 q1 src q2 g3 =>
      simp only [pieceWFB, Bool.and_eq_true] at hp
      obtain ⟨⟨⟨⟨⟨⟨hg1, hfree⟩, hq1⟩, hsrcne⟩, hsrcq⟩, hq2⟩, hg3⟩ := hp
      have hg1' : ∀ c ∈ g1, (c == '>') = false := by
        intro c hc; simpa using List.all_eq_true.mp hg1 c hc
      have hsrc' : ∀ c ∈ src, isQuoteCh c = false := by
        intro c hc; simpa using List.all_eq_true.mp hsrcq c hc
      have hg3' : ∀ c ∈ g3, (c == '>') = false := by
        intro c hc; simpa using List.all_eq_true.mp hg3 c hc
      have hm := imgUploadMatch_tag env g1 q1 src q2 g3 (renderDoc ps)
        hg1' hfree hq1 (by simpa using hsrcne) hsrc' hq2 hg3'
      have hne : renderImgTag g1 q1 src q2 g3 ++ renderDoc ps ≠ [] := by
        simp [renderImgTag]
      have hk : 1 ≤ (renderImgTag g1 q1 src q2 g3).length := by
        simp [renderImgTag]
      have hstep := reSub_step (imgUploadMatch env) hm hne hk
      rw [List.drop_left] at hstep
      calc upload_content_images env
            (renderDoc (CPiece.imgTag g1 q1 src q2 g3 :: ps))
          = reSub (imgUploadMatch env)
              (renderImgTag g1 q1 src q2 g3 ++ renderDoc ps) := by
            simp [upload_content_images, renderDoc, renderPiece]
        _ = replace_image env g1 q1 src q2 g3 ++
              reSub (imgUploadMatch env) (renderDoc ps) := hstep
        _ = replace_image env g1 q1 src q2 g3 ++
              (ps.map (processPiece env)).flatten := by rw [ih']
        _ = ((CPiece.imgTag g1 q1 src q2 g3 :: ps).map (processPiece env)).flatten := by
            simp [processPiece]

/-- C7: over any document rendered from well-formed pieces, inline image
substitution rewrites every `<img ... src=... >` tag independently through
`replace_image` and leaves literal text untouched — so a failure on one
image never affects the rest of the document; and per matched tag:
an absolute `http(s)` URL, a `src` containing `cover` (case-insensitive), a
missing file, a failed upload, or an upload returning no URL each leave the
tag byte-for-byte unchanged, while a successful upload returning a URL
replaces exactly the `src` value (requoted with `"`), preserving both
attribute groups verbatim. -/
theorem upload_content_images_correct (env : List Char → ImgEnv) :
    (∀ ps : List CPiece, ps.all pieceWFB = true →
      upload_content_images env (renderDoc ps) =
        (ps.map (processPiece env)).flatten) ∧
    (∀ g1 q1 src q2 g3, (httpPre.isPrefixOf src || httpsPre.isPrefixOf src) = true →
      replace_image env g1 q1 src q2 g3 = renderImgTag g1 q1 src q2 g3) ∧
    (∀ g1 q1 src q2 g3, containsB coverStr (lowerList src) = true →
      replace_image env g1 q1 src q2 g3 = renderImgTag g1 q1 src q2 g3) ∧
    (∀ g1 q1 src q2 g3, (env src).fileExists = false →
      replace_image env g1 q1 src q2 g3 = renderImgTag g1 q1 src q2 g3) ∧
    (∀ g1 q1 src q2 g3,
      (env src).upload = .failure ∨ (env src).upload = .success [] →
      replace_image env g1 q1 src q2 g3 = renderImgTag g1 q1 src q2 g3) ∧
    (∀ g1 q1 src q2 g3 url, (env src).upload = .success url → url ≠ [] →
      (httpPre.isPrefixOf src || httpsPre.isPrefixOf src) = false →
      containsB coverStr (lowerList src) = false →
      (env src).fileExists = true →
      replace_image env g1 q1 src q2 g3 = renderImgTag g1 dq url dq g3) := by
  refine ⟨upload_content_images_pieces env, fun g1 q1 src q2 g3 h => ?_,
    fun g1 q1 src q2 g3 h => ?_, fun g1 q1 src q2 g3 h => ?_,
    fun g1 q1 src q2 g3 h => ?_, fun g1 q1 src q2 g3 url hu hne hh hc hf => ?_⟩
  · simp [replace_image, h]
  · by_cases h1 : (httpPre.isPrefixOf src || httpsPre.isPrefixOf src) = true <;>
      simp [replace_image, h1, h]
  · by_cases h1 : (httpPre.isPrefixOf src || httpsPre.isPrefixOf src) = true <;>
      by_cases h2 : containsB coverStr (lowerList src) = true <;>
      simp [replace_image, h1, h2, h]
  · by_cases h1 : (httpPre.isPrefixOf src || httpsPre.isPrefixOf src) = true <;>
      by_cases h2 : containsB coverStr (lowerList src) = true <;>
      by_cases h3 : (env src).fileExists = false <;>
      rcases h with h | h <;>
      simp [replace_image, h1, h2, h3, h]
  · have hnu : url.isEmpty = false := by
      cases url with
      | nil => exact absurd rfl hne
      | cons _ _ => rfl
    simp [replace_image, hh, hc, hf, hu, hnu]

/-- Environment for the C7 witness: `local/pic.png` exists and uploads to a
URL; nothing else exists. -/
def imgEnvW : List Char → ImgEnv := fun src =>
  if src == ("local/pic.png".toList) then
    ⟨true, .success ("http://mmbiz.example/u".toList)⟩
  else ⟨false, .failure⟩

/-- Document for the C7 witness: text, a local image, and an absolute URL
image. -/
def imgDocW : List CPiece :=
  [CPiece.rawText ("body".toList),
   CPiece.imgTag [' '] squote ("local/pic.png".toList) squote [],
   CPiece.rawText ("tail".toList),
   CPiece.imgTag [' '] squote ("http://x".toList) squote []]

/-- C7 witness: the theorem applied at a concrete document and environment —
the local image's `src` is replaced, the absolute URL image and the text are
unchanged — plus the per-tag conjuncts at concrete inputs discharging their
hypotheses. -/
theorem upload_content_images_correct_witness :
    upload_content_images imgEnvW (renderDoc imgDocW) =
      (imgDocW.map (processPiece imgEnvW)).flatten ∧
    replace_image imgEnvW [' '] squote ("http://x".toList) squote [] =
      renderImgTag [' '] squote ("http://x".toList) squote [] ∧
    replace_image imgEnvW [' '] squote ("undercover.png".toList) squote [] =
      renderImgTag [' '] squote ("undercover.png".toList) squote [] ∧
    replace_image imgEnvW [' '] squote ("missing.png".toList) squote [] =
      renderImgTag [' '] squote ("missing.png".toList) squote [] ∧
    replace_image imgEnvW [' '] squote ("local/pic.png".toList) squote [] =
      renderImgTag [' '] dq ("http://mmbiz.example/u".toList) dq [] :=
  ⟨(upload_content_images_correct imgEnvW).1 imgDocW (by decide),
    (upload_content_images_correct imgEnvW).2.1 [' '] squote ("http://x".toList)
      squote [] (by decide),
    (upload_content_images_correct imgEnvW).2.2.1 [' '] squote
      ("undercover.png".toList) squote [] (by decide),
    (upload_content_images_correct imgEnvW).2.2.2.1 [' '] squote
      ("missing.png".toList) squote [] (by decide),
    (upload_content_images_correct imgEnvW).2.2.2.2.2 [' '] squote
      ("local/pic.png".toList) squote [] ("http://mmbiz.example/u".toList)
      (by decide) (by decide) (by decide) (by decide) (by decide)⟩

/-! ### Cover-image stripping (`_remove_cover_image`, publisher.py:318-355)

Four `re.sub` passes, all `IGNORECASE`:
1. `<img[^>]*src=["\']cover\.(png|jpg|jpeg|gif)["\'][^>]*>` removed — the
   match runs from a (case-insensitive) `<img` to the first following `>`,
   and exists iff the stretch between contains `src=` + quote + `cover.` +
   extension + quote, case-insensitively;
2. `<img[^>]*alt=["\'][^"\']*封面[^"\']*["\'][^>]*>` removed — the greedy
   `[^>]*` tries `alt=`-candidates from the last one before the first `>`
   backwards; a candidate needs an opening quote, then the run to the next
   quote must contain 封面, and the match then extends to the first `>`
   after that closing quote;
3. the same with `title=`;
4. `(<!--[^>]*标题[^>]*-->)\s*<img[^>]*>` collapsed to the comment group,
   first occurrence only (`count=1`). -/

def altKey : List Char := "alt=".toList

def titleKey : List Char := "title=".toList

def fengmian : List Char := "封面".toList

def titleMark : List Char := "标题".toList

def coverDot : List Char := "cover.".toList

def coverExts : List (List Char) := ["png".toList, "jpg".toList, "jpeg".toList, "gif".toList]

/-- The sixteen quote/extension variants of `src=["']cover\.(...)["']`. -/
def coverNeedles : List (List Char) :=
  ([dq, squote].flatMap fun q1 =>
    coverExts.flatMap fun ext =>
      [dq, squote].map fun q2 => srcEq ++ (q1 :: (coverDot ++ (ext ++ [q2]))))

/-- Case-insensitive needle containment (the needles are lowercase). -/
def hasCoverSrcB (seg : List Char) : Bool :=
  coverNeedles.any fun nd => containsB nd (lowerList seg)

/-- Case-insensitive prefix test against a lowercase pattern. -/
def ciPrefixB : List Char → List Char → Bool
  | [], _ => true
  | _ :: _, [] => false
  | p :: ps, c :: cs => p == c.toLower && ciPrefixB ps cs

/-- Reads a case-insensitive `<img` and returns the remainder. -/
def imgOpenCI : List Char → Option (List Char)
  | c :: a :: b :: d :: rest =>
    if c == '<' && a.toLower == 'i' && b.toLower == 'm' && d.toLower == 'g' then
      some rest
    else none
  | _ => none

/-- Compiled matcher for the `src=cover.*` pattern. -/
def coverSrcMatch : List Char → Option (Nat × List Char) := fun s =>
  match imgOpenCI s with
  | some rest =>
    match splitAtFirst (fun c => c == '>') rest with
    | some (seg, _, _) =>
      if hasCoverSrcB seg then some (4 + seg.length + 1, []) else none
    | none => none
  | none => none

/-- Reads `alt=`/`title=` plus an opening quote at the head, returning the
remainder after the quote. -/
def candOpen (key : List Char) (s : List Char) : Option (List Char) :=
  if ciPrefixB key s then
    match s.drop key.length with
    | q1 :: rest1 => if isQuoteCh q1 then some rest1 else none
    | [] => none
  else none

/-- Backwards-greedy scan for the last `key=["']..封面..["']` candidate that
completes; returns the length up to and including the `>` that ends the
match. -/
def markScanB (key : List Char) : List Char → Option Nat
  | [] => none
  | c :: t =>
    if c == '>' then none
    else
      match markScanB key t with
      | some n => some (n + 1)
      | none =>
        match candOpen key (c :: t) with
        | some rest1 =>
          match splitAtFirst isQuoteCh rest1 with
          | some (v1, _, rest2) =>
            if containsB fengmian v1 then
              match splitAtFirst (fun x => x == '>') rest2 with
              | some (x2, _, _) =>
                some (key.length + 1 + v1.length + 1 + x2.length + 1)
              | none => none
            else none
          | none => none
        | none => none

/-- Compiled matcher for the `alt=`/`title=` 封面 patterns. -/
def coverMarkMatch (key : List Char) : List Char → Option (Nat × List Char) :=
  fun s =>
    match imgOpenCI s with
    | some rest =>
      match markScanB key rest with
      | some n => some (4 + n, [])
      | none => none
    | none => none

/-- Compiled matcher for the title-comment collapse pattern
`(<!--[^>]*标题[^>]*-->)\s*<img[^>]*>`. -/
def commentCollapseMatch : List Char → Option (Nat × List Char)
  | '<' :: '!' :: '-' :: '-' :: rest =>
    match splitAtFirst (fun c => c == '>') rest with
    | some (body, _, after) =>
      match body.reverse with
      | '-' :: '-' :: revInner =>
        if containsB titleMark revInner.reverse then
          match imgOpenCI (after.dropWhile isPySpace) with
          | some rest2 =>
            match splitAtFirst (fun c => c == '>') rest2 with
            | some (a2, _, _) =>
              some (4 + body.length + 1 + (after.takeWhile isPySpace).length +
                  4 + a2.length + 1,
                '<' :: '!' :: '-' :: '-' :: (body ++ ['>']))
            | none => none
          | none => none
        else none
      | _ => none
    | none => none
  | _ => none

/-- `_remove_cover_image` (publisher.py:318-355): the three cover patterns
removed in order, then the first comment-plus-image collapsed. -/
def remove_cover_image (content : List Char) : List Char :=
  reSubOnce commentCollapseMatch
    (reSub (coverMarkMatch titleKey)
      (reSub (coverMarkMatch altKey)
        (reSub coverSrcMatch content)))

/-- Whether some position of `attrs` starts a `key=["']..封面..["']`
candidate whose quoted run (up to the next quote) contains 封面. -/
def hasMarkB (key : List Char) : List Char → Bool
  | [] => false
  | c :: t =>
    (match candOpen key (c :: t) with
     | some rest1 =>
       match splitAtFirst isQuoteCh rest1 with
       | some (v1, _, _) => containsB fengmian v1
       | none => false
     | none => false) || hasMarkB key t

/-- Every `key=` candidate's opening quote is closed by a quote inside
`attrs` itself. -/
def selfContainedB (key : List Char) : List Char → Bool
  | [] => true
  | c :: t =>
    (match candOpen key (c :: t) with
     | some rest1 => (splitAtFirst isQuoteCh rest1).isSome
     | none => true) && selfContainedB key t

theorem ciPrefixB_gt_stop (key : List Char)
    (hkey : ∀ k ∈ key, (k == '>') = false) :
    ∀ x y, ciPrefixB key (x ++ '>' :: y) = ciPrefixB key x := by
  induction key with
  | nil => intro x y; rfl
  | cons p ps ih =>
    intro x y
    cases x with
    | nil =>
      have hp : (p == '>') = false := hkey p (by simp)
      have ht : ('>' : Char).toLower = '>' := by decide
      simp [ciPrefixB, ht, hp]
    | cons a xs =>
      simp only [List.cons_append, ciPrefixB, List.append_eq]
      rw [ih (fun k hk => hkey k (by simp [hk])) xs y]

theorem ciPrefixB_length_le :
    ∀ key x : List Char, ciPrefixB key x = true → key.length ≤ x.length := by
  intro key
  induction key with
  | nil => intro x _; simp
  | cons p ps ih =>
    intro x h
    cases x with
    | nil => simp [ciPrefixB] at h
    | cons a xs =>
      simp only [ciPrefixB, Bool.and_eq_true] at h
      have := ih xs h.2
      simp only [List.length_cons]
      omega

theorem splitAtFirst_ext (p : Char → Bool) {w a b X : List Char} {m : Char}
    (h : splitAtFirst p w = some (a, m, b)) :
    splitAtFirst p (w ++ X) = some (a, m, b ++ X) := by
  obtain ⟨hw, hm, ha⟩ := splitAtFirst_sound p w a m b h
  subst hw
  rw [show (a ++ m :: b) ++ X = a ++ m :: (b ++ X) by simp]
  exact splitAtFirst_complete p a m (b ++ X) ha hm

theorem candOpen_sound (key s rest1 : List Char)
    (h : candOpen key s = some rest1) :
    ∃ q1, s.drop key.length = q1 :: rest1 ∧ isQuoteCh q1 = true ∧
      ciPrefixB key s = true := by
  unfold candOpen at h
  by_cases hp : ciPrefixB key s = true
  · rw [if_pos hp] at h
    cases hd : s.drop key.length with
    | nil => rw [hd] at h; simp at h
    | cons q1 r1 =>
      rw [hd] at h
      by_cases hq : isQuoteCh q1 = true
      · simp only [hq, if_true, Option.some.injEq] at h
        exact ⟨q1, by simp [hd, h], hq, hp⟩
      · simp [hq] at h
  · rw [if_neg hp] at h; simp at h

theorem candOpen_ext (key : List Char)
    (hkey : ∀ k ∈ key, (k == '>') = false) (x r : List Char) :
    candOpen key (x ++ '>' :: r) =
      (candOpen key x).map (fun rest1 => rest1 ++ '>' :: r) := by
  unfold candOpen
  rw [ciPrefixB_gt_stop key hkey x r]
  by_cases hp : ciPrefixB key x = true
  · simp only [hp, if_true]
    have hlen := ciPrefixB_length_le key x hp
    rw [List.drop_append_of_le_length hlen]
    cases hdx : x.drop key.length with
    | nil =>
      have hq : isQuoteCh '>' = false := by decide
      simp [hq]
    | cons q1 rest1 =>
      by_cases hq : isQuoteCh q1 = true <;> simp [hq]
  · simp [hp]

theorem markScanB_attrs (key : List Char)
    (hkey : ∀ k ∈ key, (k == '>') = false) :
    ∀ attrs r, (∀ ch ∈ attrs, (ch == '>') = false) →
      selfContainedB key attrs = true →
      markScanB key (attrs ++ '>' :: r) =
        if hasMarkB key attrs then some (attrs.length + 1) else none := by
  intro attrs
  induction attrs with
  | nil => intro r _ _; simp [markScanB, hasMarkB]
  | cons c t ih =>
    intro r hgt hsc
    have hcne : (c == '>') = false := hgt c (by simp)
    simp only [selfContainedB, Bool.and_eq_true] at hsc
    obtain ⟨hsc1, hsc2⟩ := hsc
    have iht := ih r (fun ch hch => hgt ch (by simp [hch])) hsc2
    rw [List.cons_append]
    by_cases hmt : hasMarkB key t = true
    · simp only [hmt, if_true] at iht
      have hmc : hasMarkB key (c :: t) = true := by
        simp [hasMarkB, hmt]
      simp only [markScanB, hcne, Bool.false_eq_true, if_false, iht, hmc, if_true,
        List.length_cons]
    · have hmtf : hasMarkB key t = false := by
        cases hb : hasMarkB key t with
        | true => exact absurd hb hmt
        | false => rfl
      simp only [hmtf, Bool.false_eq_true, if_false] at iht
      cases hco : candOpen key (c :: t) with
      | none =>
        have hcoF : candOpen key (c :: (t ++ '>' :: r)) = none := by
          have := candOpen_ext key hkey (c :: t) r
          rw [hco] at this
          rw [List.cons_append] at this
          simpa using this
        have hmc : hasMarkB key (c :: t) = false := by
          simp [hasMarkB, hco, hmtf]
        simp only [markScanB, hcne, Bool.false_eq_true, if_false, iht, hcoF, hmc]
      | some rest1 =>
        have hcoF : candOpen key (c :: (t ++ '>' :: r)) = some (rest1 ++ '>' :: r) := by
          have := candOpen_ext key hkey (c :: t) r
          rw [hco] at this
          rw [List.cons_append] at this
          simpa using this
        have hq : (splitAtFirst isQuoteCh rest1).isSome = true := by
          simp only [hco] at hsc1
          exact hsc1
        obtain ⟨⟨v1, qc, restB⟩, hsp⟩ : ∃ x, splitAtFirst isQuoteCh rest1 = some x := by
          cases hx : splitAtFirst isQuoteCh rest1 with
          | none => rw [hx] at hq; simp at hq
          | some x => exact ⟨x, rfl⟩
        have hspF : splitAtFirst isQuoteCh (rest1 ++ '>' :: r) =
            some (v1, qc, restB ++ '>' :: r) := splitAtFirst_ext _ hsp
        by_cases hfm : containsB fengmian v1 = true
        · obtain ⟨q1, hdrop, hq1, hciP⟩ := candOpen_sound key (c :: t) rest1 hco
          obtain ⟨hr1eq, hqc, hv1q⟩ := splitAtFirst_sound isQuoteCh rest1 v1 qc restB hsp
          have hrB : ∀ ch ∈ restB, (ch == '>') = false := by
            intro ch hch
            apply hgt
            have h1 : ch ∈ rest1 := by rw [hr1eq]; simp [hch]
            have h2 : ch ∈ (c :: t).drop key.length := by rw [hdrop]; simp [h1]
            exact List.drop_subset _ _ h2
          have hx2 : splitAtFirst (fun x => x == '>') (restB ++ '>' :: r) =
              some (restB, '>', r) :=
            splitAtFirst_complete _ restB '>' r hrB (by simp)
          have hlen : key.length + 1 + v1.length + 1 + restB.length + 1 =
              t.length + 1 + 1 := by
            have hlk := ciPrefixB_length_le key (c :: t) hciP
            have hld : ((c :: t).drop key.length).length =
                (c :: t).length - key.length := List.length_drop _ _
            rw [hdrop] at hld
            rw [hr1eq] at hld
            simp only [List.length_cons, List.length_append] at hld hlk ⊢
            omega
          have hmc : hasMarkB key (c :: t) = true := by
            simp [hasMarkB, hco, hsp, hfm]
          simp only [markScanB, hcne, Bool.false_eq_true, if_false, iht, hcoF, hspF,
            hfm, if_true, hx2, hmc, List.length_cons]
          rw [hlen]
        · have hmc : hasMarkB key (c :: t) = false := by
            simp [hasMarkB, hco, hsp, hfm, hmtf]
          simp only [markScanB, hcne, Bool.false_eq_true, if_false, iht, hcoF, hspF,
            hfm, hmc]

theorem imgOpenCI_img (t : List Char) :
    imgOpenCI ('<' :: 'i' :: 'm' :: 'g' :: t) = some t := rfl

theorem imgOpenCI_nonlt (c : Char) (t : List Char) (h : c ≠ '<') :
    imgOpenCI (c :: t) = none := by
  have hb : (c == '<') = false := beq_eq_false_iff_ne.mpr h
  cases t with
  | nil => rfl
  | cons a t2 =>
    cases t2 with
    | nil => rfl
    | cons b t3 =>
      cases t3 with
      | nil => rfl
      | cons d rest => simp [imgOpenCI, hb]

theorem ccm_nonlt (c : Char) (t : List Char) (h : c ≠ '<') :
    commentCollapseMatch (c :: t) = none := by
  unfold commentCollapseMatch
  split
  · rename_i rest heq
    injection heq with h1 _
    exact absurd h1 h
  · rfl

theorem ccm_imghead (t : List Char) :
    commentCollapseMatch ('<' :: 'i' :: t) = none := rfl

theorem coverSrcMatch_nonlt (c : Char) (t : List Char) (h : c ≠ '<') :
    coverSrcMatch (c :: t) = none := by
  simp [coverSrcMatch, imgOpenCI_nonlt c t h]

theorem coverMarkMatch_nonlt (key : List Char) (c : Char) (t : List Char)
    (h : c ≠ '<') : coverMarkMatch key (c :: t) = none := by
  simp [coverMarkMatch, imgOpenCI_nonlt c t h]

theorem coverSrcMatch_tag (attrs r : List Char)
    (hgt : ∀ ch ∈ attrs, (ch == '>') = false) :
    coverSrcMatch (('<' :: 'i' :: 'm' :: 'g' :: (attrs ++ ['>'])) ++ r) =
      if hasCoverSrcB attrs then some (4 + attrs.length + 1, []) else none := by
  have hform : ('<' :: 'i' :: 'm' :: 'g' :: (attrs ++ ['>'])) ++ r =
      '<' :: 'i' :: 'm' :: 'g' :: (attrs ++ '>' :: r) := by simp
  rw [hform]
  have hsplit : splitAtFirst (fun c => c == '>') (attrs ++ '>' :: r) =
      some (attrs, '>', r) := splitAtFirst_complete _ attrs '>' r hgt (by simp)
  simp only [coverSrcMatch, imgOpenCI_img, hsplit]

theorem coverMarkMatch_tag (key : List Char)
    (hkey : ∀ k ∈ key, (k == '>') = false) (attrs r : List Char)
    (hgt : ∀ ch ∈ attrs, (ch == '>') = false)
    (hsc : selfContainedB key attrs = true) :
    coverMarkMatch key (('<' :: 'i' :: 'm' :: 'g' :: (attrs ++ ['>'])) ++ r) =
      if hasMarkB key attrs then some (4 + attrs.length + 1, []) else none := by
  have hform : ('<' :: 'i' :: 'm' :: 'g' :: (attrs ++ ['>'])) ++ r =
      '<' :: 'i' :: 'm' :: 'g' :: (attrs ++ '>' :: r) := by simp
  rw [hform]
  have hmark := markScanB_attrs key hkey attrs r hgt hsc
  simp only [coverMarkMatch, imgOpenCI_img, hmark]
  by_cases h : hasMarkB key attrs = true
  · simp only [h, if_true, Nat.add_assoc]
  · simp [h]

/-- A document split into literal text runs and lowercase `<img ...>` tags
for the cover-strip stage. -/
inductive RPiece where
  | text (s : List Char)
  | img (attrs : List Char)
deriving DecidableEq

def renderRPiece : RPiece → List Char
  | .text s => s
  | .img attrs => '<' :: 'i' :: 'm' :: 'g' :: (attrs ++ ['>'])

def renderRDoc (ps : List RPiece) : List Char := (ps.map renderRPiece).flatten

/-- Well-formedness of an `<img>` tag's attribute text for the cover-strip
analysis: no `<`/`>` characters, and every `alt=`/`title=` candidate's
opening quote is closed inside the attribute text. -/
def rimgWFB (attrs : List Char) : Bool :=
  attrs.all (fun ch => !(ch == '>') && !(ch == '<')) &&
  selfContainedB altKey attrs && selfContainedB titleKey attrs

def rpieceWFB : RPiece → Bool
  | .text s => s.all (fun ch => !(ch == '<'))
  | .img attrs => rimgWFB attrs

/-- An `<img>` tag the cover-strip stage removes: its attribute text carries
`src=` equal to `cover.png|jpg|jpeg|gif` (case-insensitively, either quote
style), or an `alt=`/`title=` attribute whose value contains 封面. -/
def isCoverImgB (attrs : List Char) : Bool :=
  hasCoverSrcB attrs || hasMarkB altKey attrs || hasMarkB titleKey attrs

def imgPredPiece (pred : List Char → Bool) : RPiece → Bool
  | .text _ => false
  | .img attrs => pred attrs

theorem rstage_filter (m : List Char → Option (Nat × List Char))
    (pred : List Char → Bool)
    (hP1 : ∀ c t, c ≠ '<' → m (c :: t) = none)
    (hP2 : ∀ attrs r, rimgWFB attrs = true →
      m (('<' :: 'i' :: 'm' :: 'g' :: (attrs ++ ['>'])) ++ r) =
        if pred attrs then some (4 + attrs.length + 1, []) else none) :
    ∀ ps, ps.all rpieceWFB = true →
      reSub m (renderRDoc ps) =
        renderRDoc (ps.filter fun p => !(imgPredPiece pred p)) := by
  intro ps
  induction ps with
  | nil => intro _; rfl
  | cons p ps ih =>
    intro h
    simp only [List.all_cons, Bool.and_eq_true] at h
    obtain ⟨hp, hps⟩ := h
    have ih' := ih hps
    cases p with
    | text s =>
      have hlt : ∀ c ∈ s, c ≠ '<' := by
        intro c hc hEq
        have := List.all_eq_true.mp hp c hc
        subst hEq
        simp at this
      have hskip : reSub m (s ++ renderRDoc ps) =
          s ++ reSub m (renderRDoc ps) := by
        apply reSub_append_skip
        intro u w hw hne
        cases w with
        | nil => exact absurd rfl hne
        | cons c w0 =>
          have hc : c ∈ s := by rw [hw]; simp
          exact hP1 c _ (hlt c hc)
      calc reSub m (renderRDoc (RPiece.text s :: ps))
          = reSub m (s ++ renderRDoc ps) := by
            simp [renderRDoc, renderRPiece]
        _ = s ++ reSub m (renderRDoc ps) := hskip
        _ = renderRDoc ((RPiece.text s :: ps).filter
              fun p => !(imgPredPiece pred p)) := by
            rw [ih']
            simp [renderRDoc, renderRPiece, imgPredPiece]
    | img attrs =>
      have hwf : rimgWFB attrs = true := hp
      have hall : attrs.all (fun ch => !(ch == '>') && !(ch == '<')) = true := by
        simp only [rimgWFB, Bool.and_eq_true] at hwf
        exact hwf.1.1
      have hchars : ∀ ch ∈ attrs, (ch == '>') = false ∧ ch ≠ '<' := by
        intro ch hch
        have h1 := List.all_eq_true.mp hall ch hch
        simp only [Bool.and_eq_true, Bool.not_eq_true'] at h1
        refine ⟨h1.1, ?_⟩
        intro hEq
        subst hEq
        simp at h1
      by_cases hpr : pred attrs = true
      · have hm := hP2 attrs (renderRDoc ps) hwf
        rw [hpr, if_pos rfl] at hm
        have hne : ('<' :: 'i' :: 'm' :: 'g' :: (attrs ++ ['>'])) ++
            renderRDoc ps ≠ [] := by simp
        have hstep := reSub_step m hm hne (by omega)
        have hdrop : (('<' :: 'i' :: 'm' :: 'g' :: (attrs ++ ['>'])) ++
            renderRDoc ps).drop (4 + attrs.length + 1) = renderRDoc ps := by
          have hlen : ('<' :: 'i' :: 'm' :: 'g' :: (attrs ++ ['>'])).length =
              4 + attrs.length + 1 := by simp; omega
          rw [← hlen, List.drop_left]
        rw [hdrop] at hstep
        calc reSub m (renderRDoc (RPiece.img attrs :: ps))
            = reSub m (('<' :: 'i' :: 'm' :: 'g' :: (attrs ++ ['>'])) ++
                renderRDoc ps) := by
              simp [renderRDoc, renderRPiece]
          _ = [] ++ reSub m (renderRDoc ps) := hstep
          _ = renderRDoc ((RPiece.img attrs :: ps).filter
                fun p => !(imgPredPiece pred p)) := by
              rw [List.nil_append, ih']
              simp [imgPredPiece, hpr]
      · have hprf : pred attrs = false := by
          cases hb : pred attrs with
          | true => exact absurd hb hpr
          | false => rfl
        have hskip : reSub m (('<' :: 'i' :: 'm' :: 'g' :: (attrs ++ ['>'])) ++
            renderRDoc ps) =
            ('<' :: 'i' :: 'm' :: 'g' :: (attrs ++ ['>'])) ++
              reSub m (renderRDoc ps) := by
          apply reSub_append_skip
          intro u w hw hne
          cases u with
          | nil =>
            have hwfull : w = '<' :: 'i' :: 'm' :: 'g' :: (attrs ++ ['>']) := by
              simpa using hw.symm
            rw [hwfull]
            rw [hP2 attrs (renderRDoc ps) hwf, hprf]
            rfl
          | cons u0 us =>
            cases w with
            | nil => exact absurd rfl hne
            | cons c w0 =>
              have hcmem : c ∈ 'i' :: 'm' :: 'g' :: (attrs ++ ['>']) := by
                have : 'i' :: 'm' :: 'g' :: (attrs ++ ['>']) = us ++ c :: w0 := by
                  have := hw
                  simp only [List.cons_append] at this
                  exact (List.cons.injEq _ _ _ _).mp this |>.2
                rw [this]
                simp
              have hcne : c ≠ '<' := by
                rcases List.mem_cons.mp hcmem with h1 | h1
                · subst h1; decide
                · rcases List.mem_cons.mp h1 with h2 | h2
                  · subst h2; decide
                  · rcases List.mem_cons.mp h2 with h3 | h3
                    · subst h3; decide
                    · rcases List.mem_append.mp h3 with h4 | h4
                      · exact (hchars c h4).2
                      · have : c = '>' := by simpa using h4
                        subst this; decide
              exact hP1 c _ hcne
        calc reSub m (renderRDoc (RPiece.img attrs :: ps))
            = reSub m (('<' :: 'i' :: 'm' :: 'g' :: (attrs ++ ['>'])) ++
                renderRDoc ps) := by
              simp [renderRDoc, renderRPiece]
          _ = ('<' :: 'i' :: 'm' :: 'g' :: (attrs ++ ['>'])) ++
                reSub m (renderRDoc ps) := hskip
          _ = renderRDoc ((RPiece.img attrs :: ps).filter
                fun p => !(imgPredPiece pred p)) := by
              rw [ih']
              simp [renderRDoc, renderRPiece, imgPredPiece, hprf]

theorem reSubOnce_id_pieces :
    ∀ ps, ps.all rpieceWFB = true →
      reSubOnce commentCollapseMatch (renderRDoc ps) = renderRDoc ps := by
  intro ps
  induction ps with
  | nil => intro _; rfl
  | cons p ps ih =>
    intro h
    simp only [List.all_cons, Bool.and_eq_true] at h
    obtain ⟨hp, hps⟩ := h
    have ih' := ih hps
    have hdoc : renderRDoc (p :: ps) = renderRPiece p ++ renderRDoc ps := by
      simp [renderRDoc]
    rw [hdoc]
    have hskip : reSubOnce commentCollapseMatch (renderRPiece p ++ renderRDoc ps) =
        renderRPiece p ++ reSubOnce commentCollapseMatch (renderRDoc ps) := by
      apply reSubOnce_append_skip
      intro u w hw hne
      cases p with
      | text s =>
        cases w with
        | nil => exact absurd rfl hne
        | cons c w0 =>
          have hc : c ∈ s := by
            have : c ∈ renderRPiece (RPiece.text s) := by rw [hw]; simp
            simpa [renderRPiece] using this
          have hcne : c ≠ '<' := by
            intro hEq
            have := List.all_eq_true.mp hp c hc
            subst hEq
            simp at this
          exact ccm_nonlt c _ hcne
      | img attrs =>
        have hall : attrs.all (fun ch => !(ch == '>') && !(ch == '<')) = true := by
          have hwf : rimgWFB attrs = true := hp
          simp only [rimgWFB, Bool.and_eq_true] at hwf
          exact hwf.1.1
        cases u with
        | nil =>
          have hwfull : w = '<' :: 'i' :: 'm' :: 'g' :: (attrs ++ ['>']) := by
            simpa [renderRPiece] using hw.symm
          rw [hwfull]
          rw [show ('<' :: 'i' :: 'm' :: 'g' :: (attrs ++ ['>'])) ++ renderRDoc ps =
              '<' :: 'i' :: ('m' :: 'g' :: (attrs ++ ['>']) ++ renderRDoc ps) by simp]
          exact ccm_imghead _
        | cons u0 us =>
          cases w with
          | nil => exact absurd rfl hne
          | cons c w0 =>
            have hcmem : c ∈ 'i' :: 'm' :: 'g' :: (attrs ++ ['>']) := by
              have heq : 'i' :: 'm' :: 'g' :: (attrs ++ ['>']) = us ++ c :: w0 := by
                have h2 := hw
                simp only [renderRPiece, List.cons_append] at h2
                exact (List.cons.injEq _ _ _ _).mp h2 |>.2
              rw [heq]
              simp
            have hcne : c ≠ '<' := by
              rcases List.mem_cons.mp hcmem with h1 | h1
              · subst h1; decide
              · rcases List.mem_cons.mp h1 with h2 | h2
                · subst h2; decide
                · rcases List.mem_cons.mp h2 with h3 | h3
                  · subst h3; decide
                  · rcases List.mem_append.mp h3 with h4 | h4
                    · have h5 := List.all_eq_true.mp hall c h4
                      simp only [Bool.and_eq_true, Bool.not_eq_true'] at h5
                      intro hEq
                      subst hEq
                      simp at h5
                    · have : c = '>' := by simpa using h4
                      subst this; decide
            exact ccm_nonlt c _ hcne
    rw [hskip, ih']

theorem all_filter_of_all {ps : List RPiece} {g : RPiece → Bool}
    (h : ps.all rpieceWFB = true) :
    (ps.filter g).all rpieceWFB = true := by
  rw [List.all_eq_true] at h ⊢
  intro p hpmem
  exact h p (List.mem_of_mem_filter hpmem)

theorem remove_cover_image_pieces :
    ∀ ps, ps.all rpieceWFB = true →
      remove_cover_image (renderRDoc ps) =
        renderRDoc (ps.filter fun p => !(imgPredPiece isCoverImgB p)) := by
  intro ps h
  have hkeyAlt : ∀ k ∈ altKey, (k == '>') = false := by decide
  have hkeyTitle : ∀ k ∈ titleKey, (k == '>') = false := by decide
  have hP2A : ∀ attrs r, rimgWFB attrs = true →
      coverSrcMatch (('<' :: 'i' :: 'm' :: 'g' :: (attrs ++ ['>'])) ++ r) =
        if hasCoverSrcB attrs then some (4 + attrs.length + 1, []) else none := by
    intro attrs r hwf
    apply coverSrcMatch_tag
    intro ch hch
    simp only [rimgWFB, Bool.and_eq_true] at hwf
    have := List.all_eq_true.mp hwf.1.1 ch hch
    simp only [Bool.and_eq_true, Bool.not_eq_true'] at this
    exact this.1
  have hP2B : ∀ (key : List Char), (∀ k ∈ key, (k == '>') = false) →
      (∀ attrs, rimgWFB attrs = true → selfContainedB key attrs = true) →
      ∀ attrs r, rimgWFB attrs = true →
      coverMarkMatch key (('<' :: 'i' :: 'm' :: 'g' :: (attrs ++ ['>'])) ++ r) =
        if hasMarkB key attrs then some (4 + attrs.length + 1, []) else none := by
    intro key hk hsc attrs r hwf
    apply coverMarkMatch_tag key hk attrs r
    · intro ch hch
      simp only [rimgWFB, Bool.and_eq_true] at hwf
      have := List.all_eq_true.mp hwf.1.1 ch hch
      simp only [Bool.and_eq_true, Bool.not_eq_true'] at this
      exact this.1
    · exact hsc attrs hwf
  have hstageA := rstage_filter coverSrcMatch hasCoverSrcB
    (fun c t hc => coverSrcMatch_nonlt c t hc) hP2A ps h
  have hB := rstage_filter (coverMarkMatch altKey) (hasMarkB altKey)
    (fun c t hc => coverMarkMatch_nonlt altKey c t hc)
    (hP2B altKey hkeyAlt (fun attrs hwf => by
      simp only [rimgWFB, Bool.and_eq_true] at hwf
      exact hwf.1.2))
    (ps.filter fun p => !(imgPredPiece hasCoverSrcB p)) (all_filter_of_all h)
  have hC := rstage_filter (coverMarkMatch titleKey) (hasMarkB titleKey)
    (fun c t hc => coverMarkMatch_nonlt titleKey c t hc)
    (hP2B titleKey hkeyTitle (fun attrs hwf => by
      simp only [rimgWFB, Bool.and_eq_true] at hwf
      exact hwf.2))
    ((ps.filter fun p => !(imgPredPiece hasCoverSrcB p)).filter
      fun p => !(imgPredPiece (hasMarkB altKey) p))
    (all_filter_of_all (all_filter_of_all h))
  have hD := reSubOnce_id_pieces
    (((ps.filter fun p => !(imgPredPiece hasCoverSrcB p)).filter
        fun p => !(imgPredPiece (hasMarkB altKey) p)).filter
      fun p => !(imgPredPiece (hasMarkB titleKey) p))
    (all_filter_of_all (all_filter_of_all (all_filter_of_all h)))
  unfold remove_cover_image
  rw [hstageA, hB, hC, hD]
  congr 1
  rw [List.filter_filter, List.filter_filter]
  apply List.filter_congr
  intro p _
  cases p with
  | text s => simp [imgPredPiece]
  | img attrs =>
    simp only [imgPredPiece, isCoverImgB]
    cases hasCoverSrcB attrs <;> cases hasMarkB altKey attrs <;>
      cases hasMarkB titleKey attrs <;> rfl

theorem reSubOnce_step (m : List Char → Option (Nat × List Char))
    {s : List Char} {k : Nat} {repl : List Char} (h : m s = some (k, repl))
    (hs : s ≠ []) (hk : 1 ≤ k) : reSubOnce m s = repl ++ s.drop k := by
  cases s with
  | nil => exact absurd rfl hs
  | cons c rest =>
    rw [reSubOnce_cons_some m c rest k repl h]
    cases k with
    | zero => omega
    | succ k0 => rfl

/-- A title comment, whitespace, an `<img>` tag, and arbitrary following
text. -/
def titledCommentDoc (cbody w a rest : List Char) : List Char :=
  ('<' :: '!' :: '-' :: '-' :: (cbody ++ ['-', '-', '>'])) ++
    (w ++ (('<' :: 'i' :: 'm' :: 'g' :: (a ++ ['>'])) ++ rest))

theorem comment_collapse (cbody w a rest : List Char)
    (hc : ∀ ch ∈ cbody, (ch == '>') = false)
    (ht : containsB titleMark cbody = true)
    (hw : ∀ ch ∈ w, isPySpace ch = true)
    (ha : ∀ ch ∈ a, (ch == '>') = false) :
    reSubOnce commentCollapseMatch (titledCommentDoc cbody w a rest) =
      ('<' :: '!' :: '-' :: '-' :: (cbody ++ ['-', '-', '>'])) ++ rest := by
  have hbody : ∀ ch ∈ cbody ++ ['-', '-'], (ch == '>') = false := by
    intro ch hch
    rcases List.mem_append.mp hch with h1 | h1
    · exact hc ch h1
    · have : ch = '-' := by
        rcases List.mem_cons.mp h1 with h2 | h2
        · exact h2
        · simpa using h2
      subst this; decide
  have hsplit1 : splitAtFirst (fun c => c == '>')
      ((cbody ++ ['-', '-']) ++ '>' ::
        (w ++ ('<' :: 'i' :: 'm' :: 'g' :: (a ++ '>' :: rest)))) =
      some (cbody ++ ['-', '-'], '>',
        w ++ ('<' :: 'i' :: 'm' :: 'g' :: (a ++ '>' :: rest))) :=
    splitAtFirst_complete _ _ '>' _ hbody (by simp)
  have hdw : (w ++ ('<' :: 'i' :: 'm' :: 'g' :: (a ++ '>' :: rest))).dropWhile
      isPySpace = '<' :: 'i' :: 'm' :: 'g' :: (a ++ '>' :: rest) :=
    dropWhile_append_stop _ w '<' _ hw (by decide)
  have htw : (w ++ ('<' :: 'i' :: 'm' :: 'g' :: (a ++ '>' :: rest))).takeWhile
      isPySpace = w :=
    takeWhile_append_stop _ w '<' _ hw (by decide)
  have hsplit2 : splitAtFirst (fun c => c == '>') (a ++ '>' :: rest) =
      some (a, '>', rest) := splitAtFirst_complete _ a '>' rest ha (by simp)
  have hrev : (cbody ++ ['-', '-']).reverse = '-' :: '-' :: cbody.reverse := by
    simp
  have hmatch : commentCollapseMatch (titledCommentDoc cbody w a rest) =
      some (4 + (cbody ++ ['-', '-']).length + 1 + w.length + 4 + a.length + 1,
        '<' :: '!' :: '-' :: '-' :: ((cbody ++ ['-', '-']) ++ ['>'])) := by
    have hform : titledCommentDoc cbody w a rest =
        '<' :: '!' :: '-' :: '-' :: ((cbody ++ ['-', '-']) ++ '>' ::
          (w ++ ('<' :: 'i' :: 'm' :: 'g' :: (a ++ '>' :: rest)))) := by
      simp [titledCommentDoc]
    rw [hform]
    simp only [commentCollapseMatch, hsplit1, hrev, List.reverse_reverse, ht,
      if_true, hdw, htw, imgOpenCI_img, hsplit2]
  have hne : titledCommentDoc cbody w a rest ≠ [] := by
    simp [titledCommentDoc]
  have hstep := reSubOnce_step commentCollapseMatch hmatch hne (by omega)
  rw [hstep]
  have hdrop : (titledCommentDoc cbody w a rest).drop
      (4 + (cbody ++ ['-', '-']).length + 1 + w.length + 4 + a.length + 1) =
      rest := by
    have hform2 : titledCommentDoc cbody w a rest =
        (('<' :: '!' :: '-' :: '-' :: (cbody ++ ['-', '-', '>'])) ++
          (w ++ ('<' :: 'i' :: 'm' :: 'g' :: (a ++ ['>'])))) ++ rest := by
      simp [titledCommentDoc]
    have hlen : (('<' :: '!' :: '-' :: '-' :: (cbody ++ ['-', '-', '>'])) ++
        (w ++ ('<' :: 'i' :: 'm' :: 'g' :: (a ++ ['>'])))).length =
        4 + (cbody ++ ['-', '-']).length + 1 + w.length + 4 + a.length + 1 := by
      simp
      omega
    rw [hform2, ← hlen, List.drop_left]
  rw [hdrop]
  simp

/-- The spec example input `<img src="cover.png" alt="x">body<img
src="local/pic.png">`. -/
def coverExInput : List Char :=
  ("<img src=".toList) ++ [dq] ++ ("cover.png".toList) ++ [dq] ++
    (" alt=".toList) ++ [dq] ++ ("x".toList) ++ [dq] ++
    (">body<img src=".toList) ++ [dq] ++ ("local/pic.png".toList) ++
    [dq] ++ ['>']

/-- The spec example after cover stripping: the cover tag deleted, the local
tag intact. -/
def coverExStripped : List Char :=
  ("body<img src=".toList) ++ [dq] ++ ("local/pic.png".toList) ++ [dq] ++
    ['>']

/-- The spec example after the inline-upload stage: only the remaining tag's
`src` value replaced by the uploaded URL. -/
def coverExFinal : List Char :=
  ("body<img src=".toList) ++ [dq] ++ ("http://mmbiz.example/u".toList) ++
    [dq] ++ ['>']

/-- C8: cover stripping removes exactly the `<img>` tags whose attribute
text carries a `cover.(png|jpg|jpeg|gif)` `src` (case-insensitive, either
quote) or an `alt=`/`title=` value containing 封面, and nothing else (for
every document split into `<`-free text runs and well-formed tags); a title
comment followed by whitespace and an `<img>` tag — untouched by the three
tag-removal passes — collapses to just the comment; and on the spec's
concrete example the cover tag is deleted while the subsequent inline-image
upload rewrites only the surviving tag's `src`, keeping other attribute
text verbatim. -/
theorem remove_cover_image_correct :
    (∀ ps : List RPiece, ps.all rpieceWFB = true →
      remove_cover_image (renderRDoc ps) =
        renderRDoc (ps.filter fun p => !(imgPredPiece isCoverImgB p))) ∧
    (∀ cbody w a rest : List Char,
      (∀ ch ∈ cbody, (ch == '>') = false) →
      containsB titleMark cbody = true →
      (∀ ch ∈ w, isPySpace ch = true) →
      (∀ ch ∈ a, (ch == '>') = false) →
      reSub coverSrcMatch (titledCommentDoc cbody w a rest) =
        titledCommentDoc cbody w a rest →
      reSub (coverMarkMatch altKey) (titledCommentDoc cbody w a rest) =
        titledCommentDoc cbody w a rest →
      reSub (coverMarkMatch titleKey) (titledCommentDoc cbody w a rest) =
        titledCommentDoc cbody w a rest →
      remove_cover_image (titledCommentDoc cbody w a rest) =
        ('<' :: '!' :: '-' :: '-' :: (cbody ++ ['-', '-', '>'])) ++ rest) ∧
    remove_cover_image coverExInput = coverExStripped ∧
    upload_content_images imgEnvW coverExStripped = coverExFinal := by
  refine ⟨remove_cover_image_pieces, ?_, by decide, by decide⟩
  intro cbody w a rest hc ht hw ha h1 h2 h3
  unfold remove_cover_image
  rw [h1, h2, h3]
  exact comment_collapse cbody w a rest hc ht hw ha

/-- A concrete well-formed piece list: a cover `src` tag, a text run, and a
封面-marked tag around an innocent local tag. -/
def coverDocW : List RPiece :=
  [RPiece.img ((" src=".toList) ++ [dq] ++ ("cover.png".toList) ++ [dq] ++
    (" alt=".toList) ++ [dq] ++ ("x".toList) ++ [dq]),
   RPiece.text ("body".toList),
   RPiece.img ((" src=".toList) ++ [dq] ++ ("local/pic.png".toList) ++ [dq]),
   RPiece.img ((" alt=".toList) ++ [squote] ++ ("封面图".toList) ++ [squote])]

/-- C8 witness: the piece-filter conjunct at a concrete four-piece document
and the comment-collapse conjunct at a concrete comment, whitespace, tag and
tail, all hypotheses evaluated. -/
theorem remove_cover_image_correct_witness :
    remove_cover_image (renderRDoc coverDocW) =
      renderRDoc (coverDocW.filter fun p => !(imgPredPiece isCoverImgB p)) ∧
    remove_cover_image (titledCommentDoc ("t标题x".toList) [' ']
        ((" src=".toList) ++ [squote] ++ ("a.png".toList) ++ [squote])
        ("tail".toList)) =
      ('<' :: '!' :: '-' :: '-' :: (("t标题x".toList) ++ ['-', '-', '>'])) ++
        ("tail".toList) :=
  ⟨remove_cover_image_correct.1 coverDocW (by decide),
    remove_cover_image_correct.2.1 ("t标题x".toList) [' ']
      ((" src=".toList) ++ [squote] ++ ("a.png".toList) ++ [squote])
      ("tail".toList) (by decide) (by decide) (by decide) (by decide)
      (by decide) (by decide) (by decide)⟩
